import Mathlib

/-!
Shallow embedding of the `bit-svo` sparse voxel octree
(`src/voxel_bounds.rs`, `src/lib.rs`, `src/raycast.rs`).

Machine integers are idealized as `Int`/`Nat` (the `i32`/`i16`/`u8` of the
source; no claim under scrutiny depends on wraparound, and the source itself
carries `TODO: Check for overflow`).  Arithmetic right shift of the always
non-negative quantities in the source (`(1 << lg_size) >> 1`, the traversal
mask) is division by a power of two; `<<` is multiplication by a power of two.
Rust's bitwise `&` on `i32` (two's complement) is `Int.land`.

The two `while` loops of the source (`grow_to_hold`, and the traversal loop
shared by `find`/`mut_find`) are written with an explicit fuel that is always
sufficient, so that every definition is structurally recursive and evaluates
by `decide`/`rfl`; sufficiency of the fuel is proved below
(`growAux_spec`, `getLoopF_eq_listFind`, `mutLoopF_eq_listMut`).
-/

/-- `VoxelBounds` (src/voxel_bounds.rs): a cube with corner `(x,y,z) * 2^lg_size`
and edge `2^lg_size`. -/
structure VoxelBounds where
  x : Int
  y : Int
  z : Int
  lg_size : Int
deriving DecidableEq, Repr

/-- `VoxelBounds::size` (src/voxel_bounds.rs), with `f32` idealized as `ℚ`. -/
def VoxelBounds.size (v : VoxelBounds) : ℚ :=
  if 0 ≤ v.lg_size then ((2 : ℚ) ^ v.lg_size.toNat)
  else 1 / ((2 : ℚ) ^ (-v.lg_size).toNat)

/-- `TreeBody<T>` (src/lib.rs).  A `Branch` owns its eight children directly
(the `Box<Branches<T>>` indirection is a representation detail); the eight
arguments are in the source's field order `lll llh lhl lhh hll hlh hhl hhh`. -/
inductive TreeBody (T : Type) where
  | Empty : TreeBody T
  | Leaf : T → TreeBody T
  | Branch : TreeBody T → TreeBody T → TreeBody T → TreeBody T →
             TreeBody T → TreeBody T → TreeBody T → TreeBody T → TreeBody T
deriving DecidableEq, Repr

/-- `Branches<T>` (src/lib.rs): the eight octant slots, xyz ordering. -/
structure Branches (T : Type) where
  lll : TreeBody T
  llh : TreeBody T
  lhl : TreeBody T
  lhh : TreeBody T
  hll : TreeBody T
  hlh : TreeBody T
  hhl : TreeBody T
  hhh : TreeBody T
deriving DecidableEq, Repr

/-- `Branches::empty` (src/lib.rs). -/
def Branches.empty {T : Type} : Branches T :=
  ⟨.Empty, .Empty, .Empty, .Empty, .Empty, .Empty, .Empty, .Empty⟩

/-- Pack a `Branches` into a `TreeBody::Branch` node. -/
def TreeBody.branch {T : Type} (b : Branches T) : TreeBody T :=
  .Branch b.lll b.llh b.lhl b.lhh b.hll b.hlh b.hhl b.hhh

/-- `VoxelTree::get_mut_or_create_step` (src/lib.rs), as the `Branches` the
step hands back: an existing `Branch` yields its children; `Empty` and `Leaf`
are replaced by a fresh all-`Empty` `Branches` (the leaf value is discarded). -/
def TreeBody.toBranches {T : Type} : TreeBody T → Branches T
  | .Branch a b c d e' f' g' h' => ⟨a, b, c, d, e', f', g', h'⟩
  | _ => Branches.empty

/-- `VoxelTree<T>` (src/lib.rs): the root is always a full `Branches`. -/
structure VoxelTree (T : Type) where
  lg_size : Nat
  contents : Branches T

/-- `VoxelTree::new` (src/lib.rs). -/
def VoxelTree.new {T : Type} : VoxelTree T := ⟨0, Branches.empty⟩

/-- A selector: the three `choose_branch` booleans (x, y, z); `true` picks the
high half on that axis, matching `get_branch` in src/lib.rs. -/
abbrev Sel := Bool × Bool × Bool

/-- `VoxelTree::get_branch` (src/lib.rs): dispatch on the three booleans. -/
def Branches.sel3 {T : Type} (br : Branches T) : Sel → TreeBody T
  | (false, false, false) => br.lll
  | (false, false, true ) => br.llh
  | (false, true , false) => br.lhl
  | (false, true , true ) => br.lhh
  | (true , false, false) => br.hll
  | (true , false, true ) => br.hlh
  | (true , true , false) => br.hhl
  | (true , true , true ) => br.hhh

/-- `VoxelTree::get_branch_mut` (src/lib.rs), as a functional slot update. -/
def Branches.upd3 {T : Type} (br : Branches T) : Sel → TreeBody T → Branches T
  | (false, false, false), n => { br with lll := n }
  | (false, false, true ), n => { br with llh := n }
  | (false, true , false), n => { br with lhl := n }
  | (false, true , true ), n => { br with lhh := n }
  | (true , false, false), n => { br with hll := n }
  | (true , false, true ), n => { br with hlh := n }
  | (true , true , false), n => { br with hhl := n }
  | (true , true , true ), n => { br with hhh := n }

/-- `VoxelTree::contains_bounds` (src/lib.rs), as a function of the tree's
`lg_size` only (the contents are not consulted). -/
def containsAt (lg : Nat) (v : VoxelBounds) : Bool :=
  if v.lg_size < 0 then true
  else
    let high : Int := (2 ^ lg) / (2 ^ v.lg_size.toNat)
    let low : Int := -high
    if v.x ≤ low ∨ v.y ≤ low ∨ v.z ≤ low then false
    else decide (v.x + 1 ≤ high) && decide (v.y + 1 ≤ high) && decide (v.z + 1 ≤ high)

/-- `VoxelTree::contains_bounds` (src/lib.rs). -/
def VoxelTree.contains_bounds {T : Type} (t : VoxelTree T) (v : VoxelBounds) : Bool :=
  containsAt t.lg_size v

/-- One doubling step of `grow_to_hold` (src/lib.rs): rebuild the root,
moving each old slot's content into the diagonally opposite slot of a fresh
`Branches` (the `at!(c_idx, b_idx)` macro). -/
def growStepBranches {T : Type} (c : Branches T) : Branches T :=
  { lll := .branch { Branches.empty with hhh := c.lll }
    llh := .branch { Branches.empty with hhl := c.llh }
    lhl := .branch { Branches.empty with hlh := c.lhl }
    lhh := .branch { Branches.empty with hll := c.lhh }
    hll := .branch { Branches.empty with lhh := c.hll }
    hlh := .branch { Branches.empty with lhl := c.hlh }
    hhl := .branch { Branches.empty with llh := c.hhl }
    hhh := .branch { Branches.empty with lll := c.hhh } }

/-- One iteration of the `grow_to_hold` loop body (src/lib.rs):
`lg_size += 1` and the root rebuild. -/
def growStep {T : Type} (t : VoxelTree T) : VoxelTree T :=
  ⟨t.lg_size + 1, growStepBranches t.contents⟩

/-- The `while !self.contains_bounds(voxel)` loop of `grow_to_hold`
(src/lib.rs), with explicit fuel. -/
def growAux {T : Type} : Nat → VoxelTree T → VoxelBounds → VoxelTree T
  | 0, t, _ => t
  | fuel + 1, t, v => if t.contains_bounds v then t else growAux fuel (growStep t) v

/-- Fuel sufficient for `grow_to_hold`'s loop (proved in `containsAt_growFuel`). -/
def growFuel (v : VoxelBounds) : Nat :=
  if v.lg_size < 0 then 0
  else v.lg_size.toNat + v.x.natAbs + v.y.natAbs + v.z.natAbs + 2

/-- `VoxelTree::grow_to_hold` (src/lib.rs). -/
def VoxelTree.grow_to_hold {T : Type} (t : VoxelTree T) (v : VoxelBounds) : VoxelTree T :=
  growAux (growFuel v) t v

/-- `VoxelTree::find_mask` (src/lib.rs): `(1 << lg_size) >> 1`, then shifted
right by the voxel's `lg_size` when non-negative, left otherwise. -/
def find_mask (lg : Nat) (v : VoxelBounds) : Int :=
  let mask : Int := (2 ^ lg) / 2
  if 0 ≤ v.lg_size then mask / (2 ^ v.lg_size.toNat)
  else mask * (2 ^ (-v.lg_size).toNat)

/-- The first traversal step's `choose_branch` (src/lib.rs): `|x| x >= 0`. -/
def selSign (v : VoxelBounds) : Sel :=
  (decide (0 ≤ v.x), decide (0 ≤ v.y), decide (0 ≤ v.z))

/-- The loop traversal steps' `choose_branch` (src/lib.rs): `|x| (x & mask) != 0`.
Every mask reaching this test is a power of two `2^E` (see `find_mask_pow`), and
on such masks the two's-complement `&`-test is bit `E` of `x`, i.e.
`(x / 2^E) % 2 ≠ 0` (floor division).  We use the arithmetic form so terms
evaluate in the kernel; `selMask_models_land` certifies it against `Int.land`,
the two's-complement `&` of `i32`. -/
def selMask (mask : Int) (v : VoxelBounds) : Sel :=
  ((v.x / mask) % 2 != 0, (v.y / mask) % 2 != 0, (v.z / mask) % 2 != 0)

/-- The `loop` of `VoxelTree::find` (src/lib.rs) with `get`'s step
(`Branch` descends, anything else is `Err`): select the child by the mask
bits, halve the mask, stop when it reaches zero. -/
def getLoopF {T : Type} : Nat → VoxelBounds → Int → Branches T → Option (TreeBody T)
  | 0, _, _, _ => none
  | fuel + 1, v, mask, br =>
    let branch := br.sel3 (selMask mask v)
    let mask' := mask / 2
    if mask' = 0 then some branch
    else
      match branch with
      | .Branch a b c d e' f' g' h' => getLoopF fuel v mask' ⟨a, b, c, d, e', f', g', h'⟩
      | _ => none

/-- `VoxelTree::find` (src/lib.rs) with `get`'s step: the terminal node
addressed by `voxel`, or `none` when the path is interrupted. -/
def findTerm {T : Type} (t : VoxelTree T) (v : VoxelBounds) : Option (TreeBody T) :=
  let mask := find_mask t.lg_size v
  let branch := t.contents.sel3 (selSign v)
  if mask = 0 then some branch
  else
    match branch with
    | .Branch a b c d e' f' g' h' =>
      getLoopF (mask.toNat + 1) v mask ⟨a, b, c, d, e', f', g', h'⟩
    | _ => none

/-- `VoxelTree::get` (src/lib.rs). -/
def VoxelTree.get {T : Type} (t : VoxelTree T) (v : VoxelBounds) : Option T :=
  if t.contains_bounds v = false then none
  else
    match findTerm t v with
    | some (.Leaf w) => some w
    | _ => none

/-- The `loop` of `VoxelTree::mut_find` (src/lib.rs) with
`get_mut_or_create_step`: non-terminal nodes become (or stay) `Branch`es;
`f` is what the caller does through the returned `&mut` to the terminal node
(`id` for a bare `get_mut_or_create`, `fun _ => Leaf w` for an insertion). -/
def mutLoopF {T : Type} : Nat → VoxelBounds → Int → (TreeBody T → TreeBody T) →
    Branches T → Branches T
  | 0, _, _, _, br => br
  | fuel + 1, v, mask, f, br =>
    let s := selMask mask v
    let child := br.sel3 s
    let mask' := mask / 2
    if mask' = 0 then br.upd3 s (f child)
    else br.upd3 s (.branch (mutLoopF fuel v mask' f child.toBranches))

/-- `VoxelTree::get_mut_or_create` (src/lib.rs) followed by the caller's
action `f` on the terminal node: `grow_to_hold`, then `mut_find` with
`get_mut_or_create_step`. -/
def mutTerm {T : Type} (t : VoxelTree T) (v : VoxelBounds)
    (f : TreeBody T → TreeBody T) : VoxelTree T :=
  let t := t.grow_to_hold v
  let mask := find_mask t.lg_size v
  let s := selSign v
  if mask = 0 then ⟨t.lg_size, t.contents.upd3 s (f (t.contents.sel3 s))⟩
  else
    ⟨t.lg_size,
     t.contents.upd3 s
       (.branch (mutLoopF (mask.toNat + 1) v mask f (t.contents.sel3 s).toBranches))⟩

/-- `*tree.get_mut_or_create(v) = TreeBody::Leaf(w)`: an insertion. -/
def insertLeaf {T : Type} (t : VoxelTree T) (v : VoxelBounds) (w : T) : VoxelTree T :=
  mutTerm t v (fun _ => .Leaf w)

/-- `tree.get_mut_or_create(v)` with nothing assigned through the returned
reference: the tree after the call (path autovivified, terminal untouched). -/
def touch {T : Type} (t : VoxelTree T) (v : VoxelBounds) : VoxelTree T :=
  mutTerm t v id

/-! ### Sanity checks: the three unit tests of src/lib.rs, replayed. -/

theorem sanity_simple_test :
    let t : VoxelTree Int :=
      insertLeaf (insertLeaf (insertLeaf (insertLeaf (insertLeaf VoxelTree.new
        ⟨1, 1, 1, 0⟩ 1) ⟨8, -8, 4, 0⟩ 2) ⟨2, 0, 4, 4⟩ 3) ⟨9, 0, 16, 2⟩ 4) ⟨9, 0, 16, 2⟩ 5
    t.get ⟨1, 1, 1, 0⟩ = some 1 ∧ t.get ⟨8, -8, 4, 0⟩ = some 2 ∧
    t.get ⟨9, 0, 16, 2⟩ = some 5 ∧ t.get ⟨2, 0, 4, 4⟩ = none := by
  decide

theorem sanity_wrong_voxel_size :
    let t : VoxelTree Int := insertLeaf VoxelTree.new ⟨4, 4, -4, 1⟩ 1
    t.get ⟨4, 4, -4, 0⟩ = none ∧ t.get ⟨4, 4, -4, 2⟩ = none := by
  decide

theorem sanity_grow_is_transparent :
    let t : VoxelTree Int := insertLeaf VoxelTree.new ⟨1, 1, 1, 0⟩ 1
    let t := t.grow_to_hold ⟨0, 0, 0, 1⟩
    let t := t.grow_to_hold ⟨0, 0, 0, 2⟩
    let t := t.grow_to_hold ⟨-32, 32, -128, 3⟩
    t.get ⟨1, 1, 1, 0⟩ = some 1 := by
  decide

/-! ### The traversal as a selector path

`find`/`mut_find` visit one `Branches` per selector; the selector sequence is
determined by `lg_size`s and coordinates alone.  We compute it as a list and
relate the fueled loops to structurally recursive list traversals, on which
all structural reasoning is done. -/

/-- The selector sequence produced by the traversal loop from a given mask. -/
def selsOfMaskF : Nat → VoxelBounds → Int → List Sel
  | 0, _, _ => []
  | fuel + 1, v, mask =>
    selMask mask v :: (if mask / 2 = 0 then [] else selsOfMaskF fuel v (mask / 2))

/-- The full selector path for bounds `v` in a tree of size `lg`:
the sign step, then the mask steps. -/
def pathAt (lg : Nat) (v : VoxelBounds) : List Sel :=
  let mask := find_mask lg v
  selSign v :: (if mask = 0 then [] else selsOfMaskF (mask.toNat + 1) v mask)

/-- Read the node addressed by a selector path (the `find` traversal,
abstracted over how the path was computed). -/
def listFind {T : Type} (br : Branches T) : List Sel → Option (TreeBody T)
  | [] => none
  | s :: rest =>
    match rest with
    | [] => some (br.sel3 s)
    | _ :: _ =>
      match br.sel3 s with
      | .Branch a b c d e' f' g' h' => listFind ⟨a, b, c, d, e', f', g', h'⟩ rest
      | _ => none

/-- Rebuild along a selector path (the `mut_find` traversal with
`get_mut_or_create_step`): every non-terminal node on the path becomes a
`Branch`, the terminal slot is transformed by `f`. -/
def listMut {T : Type} (f : TreeBody T → TreeBody T) (br : Branches T) :
    List Sel → Branches T
  | [] => br
  | s :: rest =>
    match rest with
    | [] => br.upd3 s (f (br.sel3 s))
    | _ :: _ => br.upd3 s (.branch (listMut f (br.sel3 s).toBranches rest))

theorem sel3_upd3_same {T : Type} (br : Branches T) (s : Sel) (n : TreeBody T) :
    (br.upd3 s n).sel3 s = n := by
  obtain ⟨a, b, c⟩ := s
  cases a <;> cases b <;> cases c <;> rfl

theorem sel3_upd3_other {T : Type} (br : Branches T) {s s' : Sel} (n : TreeBody T)
    (h : s' ≠ s) : (br.upd3 s n).sel3 s' = br.sel3 s' := by
  obtain ⟨a, b, c⟩ := s
  obtain ⟨a', b', c'⟩ := s'
  cases a <;> cases b <;> cases c <;> cases a' <;> cases b' <;> cases c' <;>
    first
    | rfl
    | exact absurd rfl h

theorem upd3_sel3_self {T : Type} (br : Branches T) (s : Sel) :
    br.upd3 s (br.sel3 s) = br := by
  obtain ⟨a, b, c⟩ := s
  cases a <;> cases b <;> cases c <;> rfl

theorem toBranches_branch {T : Type} (bs : Branches T) :
    (TreeBody.branch bs).toBranches = bs := rfl

theorem branch_sel3_growStep {T : Type} (c : Branches T) (s : Sel) :
    (growStepBranches c).sel3 s =
      .branch (Branches.empty.upd3 (!s.1, !s.2.1, !s.2.2) (c.sel3 s)) := by
  obtain ⟨a, b, c'⟩ := s
  cases a <;> cases b <;> cases c' <;> rfl

/-! ### Arithmetic facts about the mask -/

theorem int_pow_ediv (a b : Nat) :
    (2 ^ a : Int) / (2 ^ b : Int) = if b ≤ a then 2 ^ (a - b) else 0 := by
  split
  · next h =>
    have hsplit : (2 ^ a : Int) = 2 ^ (a - b) * 2 ^ b := by
      rw [← pow_add]
      congr 1
      omega
    rw [hsplit, Int.mul_ediv_cancel _ (by positivity)]
  · next h =>
    apply Int.ediv_eq_zero_of_lt (by positivity)
    exact pow_lt_pow_right₀ (by norm_num) (by omega)

theorem int_pow_ediv_two (a : Nat) :
    (2 ^ a : Int) / 2 = if 1 ≤ a then (2 : Int) ^ (a - 1) else 0 := by
  have h : ((2 : Int) ^ a / 2) = ((2 : Int) ^ a / (2 : Int) ^ (1 : Nat)) := by norm_num
  rw [h, int_pow_ediv]

theorem find_mask_nonneg (lg : Nat) (v : VoxelBounds) : 0 ≤ find_mask lg v := by
  unfold find_mask
  split
  · exact Int.ediv_nonneg (Int.ediv_nonneg (by positivity) (by norm_num)) (by positivity)
  · exact mul_nonneg (Int.ediv_nonneg (by positivity) (by norm_num)) (by positivity)

theorem find_mask_eq_of_nonneg (lg : Nat) (v : VoxelBounds) (hs : 0 ≤ v.lg_size) :
    find_mask lg v =
      if v.lg_size.toNat + 1 ≤ lg then (2 : Int) ^ (lg - 1 - v.lg_size.toNat) else 0 := by
  unfold find_mask
  rw [if_pos hs, int_pow_ediv_two]
  split
  · next h =>
    rw [int_pow_ediv]
    rcases le_or_lt (v.lg_size.toNat + 1) lg with h' | h'
    · rw [if_pos (by omega), if_pos (by omega)]
    · rw [if_neg (by omega), if_neg (by omega)]
  · next h =>
    rw [Int.zero_ediv, if_neg (by omega)]

theorem find_mask_pow (lg : Nat) (v : VoxelBounds) :
    find_mask lg v = 0 ∨ ∃ E : Nat, find_mask lg v = 2 ^ E := by
  rcases le_or_lt 0 v.lg_size with hs | hs
  · rw [find_mask_eq_of_nonneg lg v hs]
    split
    · exact Or.inr ⟨_, rfl⟩
    · exact Or.inl rfl
  · unfold find_mask
    rw [if_neg (by omega), int_pow_ediv_two]
    split
    · next h =>
      refine Or.inr ⟨lg - 1 + (-v.lg_size).toNat, ?_⟩
      rw [pow_add]
    · next h =>
      rw [zero_mul]
      exact Or.inl rfl

/-- The certificate for `selMask`: on the power-of-two masks produced by
`find_mask`, the arithmetic bit test agrees with the two's-complement `&`
of the source (`Int.land`). -/
theorem selMask_models_land (E : Nat) (v : VoxelBounds) :
    selMask ((2 : Int) ^ E) v =
      (Int.land v.x (2 ^ E) != 0, Int.land v.y (2 ^ E) != 0,
       Int.land v.z (2 ^ E) != 0) := by
  have hpow : ((2 : Int) ^ E) = Int.ofNat (2 ^ E) := by
    rw [Int.ofNat_eq_natCast]
    push_cast
    ring
  have key : ∀ x : Int, ((x / (2 : Int) ^ E) % 2 != 0) = (Int.land x (2 ^ E) != 0) := by
    intro x
    cases x with
    | ofNat n =>
      have hdiv : (Int.ofNat n / (2 : Int) ^ E) % 2 = Int.ofNat ((n / 2 ^ E) % 2) := by
        rw [hpow]
        rfl
      have hland : Int.land (Int.ofNat n) ((2 : Int) ^ E) = Int.ofNat (n &&& 2 ^ E) := by
        rw [hpow]
        rfl
      rw [hdiv, hland, Nat.and_two_pow, Nat.testBit_to_div_mod]
      rcases Nat.mod_two_eq_zero_or_one (n / 2 ^ E) with h | h <;>
        simp [h, Int.ofNat_eq_natCast, pow_eq_zero_iff]
    | negSucc m =>
      have hdiv : (Int.negSucc m / (2 : Int) ^ E) = Int.negSucc (m / 2 ^ E) := by
        rw [hpow, Int.negSucc_ediv _ (by rw [Int.ofNat_eq_natCast]; positivity)]
        have h1 : ((m : Int)).ediv (Int.ofNat (2 ^ E)) = Int.ofNat (m / 2 ^ E) := rfl
        rw [h1, Int.negSucc_eq, Int.ofNat_eq_natCast]
      have hland : Int.land (Int.negSucc m) ((2 : Int) ^ E) =
          Int.ofNat (Nat.ldiff (2 ^ E) m) := by
        rw [hpow]
        rfl
      have hldiff : Nat.ldiff (2 ^ E) m = if m.testBit E then 0 else 2 ^ E := by
        apply Nat.eq_of_testBit_eq
        intro j
        rw [Nat.testBit_ldiff, Nat.testBit_two_pow]
        rcases eq_or_ne E j with rfl | hne
        · cases h : m.testBit E <;> simp [h, Nat.testBit_two_pow]
        · cases h : m.testBit E <;> simp [hne, Nat.zero_testBit, Nat.testBit_two_pow,
            Ne.symm hne]
      have hmod : Int.negSucc (m / 2 ^ E) % 2 =
          if (m / 2 ^ E) % 2 = 1 then 0 else 1 := by
        rw [Int.negSucc_emod _ (by norm_num)]
        rcases Nat.mod_two_eq_zero_or_one (m / 2 ^ E) with h | h
        · rw [if_neg (by omega)]
          omega
        · rw [if_pos h]
          omega
      rw [hdiv, hland, hldiff, hmod, Nat.testBit_to_div_mod]
      rcases Nat.mod_two_eq_zero_or_one (m / 2 ^ E) with h | h <;>
        simp [h, Int.ofNat_eq_natCast, pow_eq_zero_iff]
  unfold selMask
  rw [key v.x, key v.y, key v.z]

/-! ### Bridging the fueled loops to the list traversals -/

theorem selsOfMaskF_fuel_irrel (v : VoxelBounds) :
    ∀ (f1 f2 : Nat) (mask : Int), 0 < mask → mask.toNat < f1 → mask.toNat < f2 →
      selsOfMaskF f1 v mask = selsOfMaskF f2 v mask := by
  intro f1
  induction f1 with
  | zero => intro f2 mask hm h1 h2; omega
  | succ f1 ih =>
    intro f2 mask hm h1 h2
    cases f2 with
    | zero => omega
    | succ f2 =>
      show selMask mask v :: _ = selMask mask v :: _
      congr 1
      by_cases h0 : mask / 2 = 0
      · rw [if_pos h0, if_pos h0]
      · rw [if_neg h0, if_neg h0]
        have hlt : (mask / 2).toNat < mask.toNat := by
          have : 0 ≤ mask / 2 := Int.ediv_nonneg hm.le (by norm_num)
          omega
        exact ih f2 (mask / 2) (by omega) (by omega) (by omega)

theorem listFind_single {T : Type} (br : Branches T) (s : Sel) :
    listFind br [s] = some (br.sel3 s) := rfl

theorem listFind_cons_cons {T : Type} (br : Branches T) (s0 s1 : Sel) (rest : List Sel) :
    listFind br (s0 :: s1 :: rest) =
      match br.sel3 s0 with
      | .Branch a b c d e' f' g' h' => listFind ⟨a, b, c, d, e', f', g', h'⟩ (s1 :: rest)
      | _ => none := rfl

theorem listMut_single {T : Type} (f : TreeBody T → TreeBody T) (br : Branches T) (s : Sel) :
    listMut f br [s] = br.upd3 s (f (br.sel3 s)) := rfl

theorem listMut_cons_cons {T : Type} (f : TreeBody T → TreeBody T) (br : Branches T)
    (s0 s1 : Sel) (rest : List Sel) :
    listMut f br (s0 :: s1 :: rest) =
      br.upd3 s0 (.branch (listMut f (br.sel3 s0).toBranches (s1 :: rest))) := rfl

theorem selsOfMaskF_ne_nil (v : VoxelBounds) (fuel : Nat) (mask : Int)
    (hf : 0 < fuel) : selsOfMaskF fuel v mask ≠ [] := by
  cases fuel with
  | zero => omega
  | succ fuel => simp [selsOfMaskF]

theorem getLoopF_eq_listFind {T : Type} (v : VoxelBounds) :
    ∀ (fuel : Nat) (mask : Int) (br : Branches T), 0 < mask → mask.toNat < fuel →
      getLoopF fuel v mask br = listFind br (selsOfMaskF fuel v mask) := by
  intro fuel
  induction fuel with
  | zero => intro mask br hm hf; omega
  | succ fuel ih =>
    intro mask br hm hf
    unfold getLoopF
    show _ = listFind br (selMask mask v :: (if mask / 2 = 0 then [] else _))
    by_cases h0 : mask / 2 = 0
    · rw [if_pos h0, if_pos h0, listFind_single]
    · rw [if_neg h0, if_neg h0]
      have hm2 : 0 < mask / 2 :=
        (Int.ediv_nonneg hm.le (by norm_num : (0:Int) ≤ 2)).lt_of_ne (Ne.symm h0)
      have hlt : (mask / 2).toNat < mask.toNat := by omega
      obtain ⟨s, rest, hsr⟩ : ∃ s rest, selsOfMaskF fuel v (mask / 2) = s :: rest := by
        cases h' : selsOfMaskF fuel v (mask / 2) with
        | nil => exact absurd h' (selsOfMaskF_ne_nil v fuel (mask / 2) (by omega))
        | cons a l => exact ⟨a, l, rfl⟩
      rw [hsr, listFind_cons_cons]
      cases hb : br.sel3 (selMask mask v) with
      | Empty => rfl
      | Leaf w => rfl
      | Branch a b c d e' f' g' h' =>
        show getLoopF fuel v (mask / 2) ⟨a, b, c, d, e', f', g', h'⟩ = _
        rw [ih (mask / 2) _ hm2 (by omega), hsr]

theorem mutLoopF_eq_listMut {T : Type} (v : VoxelBounds) (f : TreeBody T → TreeBody T) :
    ∀ (fuel : Nat) (mask : Int) (br : Branches T), 0 < mask → mask.toNat < fuel →
      mutLoopF fuel v mask f br = listMut f br (selsOfMaskF fuel v mask) := by
  intro fuel
  induction fuel with
  | zero => intro mask br hm hf; omega
  | succ fuel ih =>
    intro mask br hm hf
    unfold mutLoopF
    show _ = listMut f br (selMask mask v :: (if mask / 2 = 0 then [] else _))
    by_cases h0 : mask / 2 = 0
    · rw [if_pos h0, if_pos h0, listMut_single]
    · rw [if_neg h0, if_neg h0]
      have hm2 : 0 < mask / 2 :=
        (Int.ediv_nonneg hm.le (by norm_num : (0:Int) ≤ 2)).lt_of_ne (Ne.symm h0)
      have hlt : (mask / 2).toNat < mask.toNat := by omega
      obtain ⟨s, rest, hsr⟩ : ∃ s rest, selsOfMaskF fuel v (mask / 2) = s :: rest := by
        cases h' : selsOfMaskF fuel v (mask / 2) with
        | nil => exact absurd h' (selsOfMaskF_ne_nil v fuel (mask / 2) (by omega))
        | cons a l => exact ⟨a, l, rfl⟩
      rw [hsr, listMut_cons_cons, ← hsr, ih (mask / 2) _ hm2 (by omega)]

/-- `find` with `get`'s step, as the list traversal along the selector path. -/
theorem findTerm_eq_listFind {T : Type} (t : VoxelTree T) (v : VoxelBounds) :
    findTerm t v = listFind t.contents (pathAt t.lg_size v) := by
  unfold findTerm pathAt
  dsimp only
  by_cases h0 : find_mask t.lg_size v = 0
  · rw [if_pos h0, if_pos h0, listFind_single]
  · rw [if_neg h0, if_neg h0]
    have hm : 0 < find_mask t.lg_size v := (find_mask_nonneg t.lg_size v).lt_of_ne (Ne.symm h0)
    obtain ⟨s, rest, hsr⟩ : ∃ s rest,
        selsOfMaskF ((find_mask t.lg_size v).toNat + 1) v (find_mask t.lg_size v) = s :: rest := by
      cases h' : selsOfMaskF ((find_mask t.lg_size v).toNat + 1) v (find_mask t.lg_size v) with
      | nil => exact absurd h' (selsOfMaskF_ne_nil v _ _ (by omega))
      | cons a l => exact ⟨a, l, rfl⟩
    rw [hsr, listFind_cons_cons]
    cases hb : t.contents.sel3 (selSign v) with
    | Empty => rfl
    | Leaf w => rfl
    | Branch a b c d e' f' g' h' =>
      show getLoopF _ v _ ⟨a, b, c, d, e', f', g', h'⟩ = _
      rw [getLoopF_eq_listFind v _ _ _ hm (by omega), hsr]

/-- `get_mut_or_create` (with the caller's terminal action `f`), as the list
rebuild along the selector path of the grown tree. -/
theorem mutTerm_eq_listMut {T : Type} (t : VoxelTree T) (v : VoxelBounds)
    (f : TreeBody T → TreeBody T) :
    mutTerm t v f =
      ⟨(t.grow_to_hold v).lg_size,
       listMut f (t.grow_to_hold v).contents (pathAt (t.grow_to_hold v).lg_size v)⟩ := by
  unfold mutTerm pathAt
  dsimp only
  by_cases h0 : find_mask (t.grow_to_hold v).lg_size v = 0
  · rw [if_pos h0, if_pos h0, listMut_single]
  · rw [if_neg h0, if_neg h0]
    have hm : 0 < find_mask (t.grow_to_hold v).lg_size v :=
      (find_mask_nonneg _ v).lt_of_ne (Ne.symm h0)
    obtain ⟨s, rest, hsr⟩ : ∃ s rest,
        selsOfMaskF ((find_mask (t.grow_to_hold v).lg_size v).toNat + 1) v
          (find_mask (t.grow_to_hold v).lg_size v) = s :: rest := by
      cases h' : selsOfMaskF ((find_mask (t.grow_to_hold v).lg_size v).toNat + 1) v
          (find_mask (t.grow_to_hold v).lg_size v) with
      | nil => exact absurd h' (selsOfMaskF_ne_nil v _ _ (by omega))
      | cons a l => exact ⟨a, l, rfl⟩
    rw [hsr, listMut_cons_cons, ← hsr,
      mutLoopF_eq_listMut v f _ _ _ hm (by omega)]

/-! ### Growth -/

/-- The fuel given to `grow_to_hold`'s loop is sufficient: after that many
doublings the bounds is contained. -/
theorem containsAt_growFuel (lg : Nat) (v : VoxelBounds) :
    containsAt (lg + growFuel v) v = true := by
  unfold containsAt growFuel
  by_cases hs : v.lg_size < 0
  · rw [if_pos hs]
  · rw [if_neg hs, if_neg hs]
    dsimp only
    rw [int_pow_ediv,
      if_pos (show v.lg_size.toNat ≤
        lg + (v.lg_size.toNat + v.x.natAbs + v.y.natAbs + v.z.natAbs + 2) by omega)]
    have hexp : lg + (v.lg_size.toNat + v.x.natAbs + v.y.natAbs + v.z.natAbs + 2)
        - v.lg_size.toNat = lg + (v.x.natAbs + v.y.natAbs + v.z.natAbs + 2) := by
      omega
    rw [hexp]
    have hbig : ((v.x.natAbs + v.y.natAbs + v.z.natAbs + 2 : Nat) : Int) <
        (2 : Int) ^ (lg + (v.x.natAbs + v.y.natAbs + v.z.natAbs + 2)) := by
      have h1 : (v.x.natAbs + v.y.natAbs + v.z.natAbs + 2 : Nat) <
          2 ^ (lg + (v.x.natAbs + v.y.natAbs + v.z.natAbs + 2)) :=
        lt_of_le_of_lt (by omega) (Nat.lt_two_pow _)
      calc ((v.x.natAbs + v.y.natAbs + v.z.natAbs + 2 : Nat) : Int)
          < ((2 ^ (lg + (v.x.natAbs + v.y.natAbs + v.z.natAbs + 2)) : Nat) : Int) := by
            exact_mod_cast h1
        _ = (2 : Int) ^ (lg + (v.x.natAbs + v.y.natAbs + v.z.natAbs + 2)) := by
            push_cast
            ring
    rw [if_neg (by omega)]
    simp only [Bool.and_eq_true, decide_eq_true_eq]
    omega

/-- Characterization of the `grow_to_hold` loop: with sufficient fuel it stops
at the first `lg_size` whose cube contains the bounds, having applied exactly
one root rebuild per doubling. -/
theorem growAux_spec {T : Type} (v : VoxelBounds) :
    ∀ (fuel : Nat) (t : VoxelTree T),
      (∃ j, j ≤ fuel ∧ containsAt (t.lg_size + j) v = true) →
      ∃ n, n ≤ fuel ∧
        growAux fuel t v = ⟨t.lg_size + n, growStepBranches^[n] t.contents⟩ ∧
        (∀ m, m < n → containsAt (t.lg_size + m) v = false) ∧
        containsAt (t.lg_size + n) v = true := by
  intro fuel
  induction fuel with
  | zero =>
    rintro t ⟨j, hj, hc⟩
    refine ⟨0, le_refl 0, ?_, by omega, ?_⟩
    · show t = _
      rw [Function.iterate_zero]
      show t = ⟨t.lg_size + 0, t.contents⟩
      rw [Nat.add_zero]
    · have hj0 : j = 0 := by omega
      rw [hj0] at hc
      exact hc
  | succ fuel ih =>
    rintro t ⟨j, hj, hc⟩
    by_cases h : t.contains_bounds v
    · refine ⟨0, by omega, ?_, by omega, h⟩
      show growAux (fuel + 1) t v = _
      unfold growAux
      rw [if_pos h, Function.iterate_zero]
      show t = ⟨t.lg_size + 0, t.contents⟩
      rw [Nat.add_zero]
    · have hj0 : j ≠ 0 := by
        intro hj0
        rw [hj0, Nat.add_zero] at hc
        exact h hc
      obtain ⟨n, hn, heq, hmin, hend⟩ := ih (growStep t)
        ⟨j - 1, by omega, by
          show containsAt (t.lg_size + 1 + (j - 1)) v = true
          have : t.lg_size + 1 + (j - 1) = t.lg_size + j := by omega
          rw [this]
          exact hc⟩
      refine ⟨n + 1, by omega, ?_, ?_, ?_⟩
      · show growAux (fuel + 1) t v = _
        unfold growAux
        rw [if_neg h, heq]
        have hlg : (growStep t).lg_size = t.lg_size + 1 := rfl
        rw [hlg]
        have harith : t.lg_size + 1 + n = t.lg_size + (n + 1) := by omega
        rw [harith]
        have hiter : growStepBranches^[n] (growStep t).contents =
            growStepBranches^[n + 1] t.contents := by
          rw [Function.iterate_succ_apply]
          rfl
        rw [hiter]
      · intro m hm
        cases m with
        | zero =>
          rw [Nat.add_zero]
          exact Bool.not_eq_true _ ▸ Bool.of_not_eq_true h
        | succ m =>
          have : t.lg_size + (m + 1) = (growStep t).lg_size + m := by
            show _ = t.lg_size + 1 + m
            omega
          rw [this]
          exact hmin m (by omega)
      · have : t.lg_size + (n + 1) = (growStep t).lg_size + n := by
          show _ = t.lg_size + 1 + n
          omega
        rw [this]
        exact hend

/-- `grow_to_hold`, characterized: it increments `lg_size` by one per rebuild,
stopping at the first size that contains the bounds. -/
theorem grow_to_hold_spec {T : Type} (t : VoxelTree T) (v : VoxelBounds) :
    ∃ n, t.grow_to_hold v = ⟨t.lg_size + n, growStepBranches^[n] t.contents⟩ ∧
      (∀ m, m < n → containsAt (t.lg_size + m) v = false) ∧
      containsAt (t.lg_size + n) v = true := by
  obtain ⟨n, _, heq, hmin, hend⟩ :=
    growAux_spec v (growFuel v) t ⟨growFuel v, le_refl _, containsAt_growFuel t.lg_size v⟩
  exact ⟨n, heq, hmin, hend⟩

theorem grow_post {T : Type} (t : VoxelTree T) (v : VoxelBounds) :
    (t.grow_to_hold v).contains_bounds v = true := by
  obtain ⟨n, heq, _, hend⟩ := grow_to_hold_spec t v
  rw [heq]
  exact hend

theorem grow_noop {T : Type} (t : VoxelTree T) (v : VoxelBounds)
    (h : t.contains_bounds v = true) : t.grow_to_hold v = t := by
  obtain ⟨n, heq, hmin, _⟩ := grow_to_hold_spec t v
  cases n with
  | zero =>
    rw [heq, Function.iterate_zero]
    show (⟨t.lg_size + 0, t.contents⟩ : VoxelTree T) = t
    rw [Nat.add_zero]
  | succ n =>
    have := hmin 0 (by omega)
    rw [Nat.add_zero] at this
    rw [VoxelTree.contains_bounds] at h
    rw [this] at h
    cases h

theorem grow_shift {T : Type} (t : VoxelTree T) (v : VoxelBounds)
    (h : t.contains_bounds v = false) :
    t.grow_to_hold v = (growStep t).grow_to_hold v := by
  obtain ⟨n, e1, min1, end1⟩ := grow_to_hold_spec t v
  obtain ⟨k, e2, min2, end2⟩ := grow_to_hold_spec (growStep t) v
  have hlg : (growStep t).lg_size = t.lg_size + 1 := rfl
  have hn0 : n ≠ 0 := by
    intro hn0
    rw [hn0, Nat.add_zero] at end1
    rw [VoxelTree.contains_bounds, end1] at h
    cases h
  have hkn : k = n - 1 := by
    rcases lt_trichotomy k (n - 1) with hlt | heq' | hgt
    · have := min1 (k + 1) (by omega)
      rw [hlg] at end2
      have harith : t.lg_size + (k + 1) = t.lg_size + 1 + k := by omega
      rw [harith] at this
      rw [this] at end2
      cases end2
    · exact heq'
    · have := min2 (n - 1) (by omega)
      rw [hlg] at this
      have harith2 : t.lg_size + 1 + (n - 1) = t.lg_size + n := by omega
      rw [harith2] at this
      rw [this] at end1
      cases end1
  rw [e1, e2, hlg, hkn]
  have harith : t.lg_size + 1 + (n - 1) = t.lg_size + n := by omega
  rw [harith]
  have hiter : growStepBranches^[n - 1] (growStep t).contents =
      growStepBranches^[n] t.contents := by
    show growStepBranches^[n - 1] (growStepBranches t.contents) = _
    rw [← Function.iterate_succ_apply]
    congr 1
    omega
  rw [hiter]

/-! ### Round-trip of insertion and lookup -/

theorem pathAt_ne_nil (lg : Nat) (v : VoxelBounds) : pathAt lg v ≠ [] := by
  unfold pathAt
  exact List.cons_ne_nil _ _

theorem listFind_branch_match {T : Type} (bs : Branches T) (s1 : Sel) (rest : List Sel) :
    (match TreeBody.branch bs with
      | .Branch a b c d e' f' g' h' => listFind ⟨a, b, c, d, e', f', g', h'⟩ (s1 :: rest)
      | _ => none) = listFind bs (s1 :: rest) := rfl

theorem listFind_listMut_self {T : Type} (w : T) :
    ∀ (p : List Sel) (br : Branches T), p ≠ [] →
      listFind (listMut (fun _ => .Leaf w) br p) p = some (.Leaf w) := by
  intro p
  induction p with
  | nil => intro br h; exact absurd rfl h
  | cons s rest ih =>
    intro br _
    cases rest with
    | nil => rw [listMut_single, listFind_single, sel3_upd3_same]
    | cons s1 rest1 =>
      rw [listMut_cons_cons, listFind_cons_cons, sel3_upd3_same, listFind_branch_match]
      exact ih _ (List.cons_ne_nil _ _)

/-- C1 (amended): after any sequence of insertions, a `get` at the bounds of
the final insertion returns that insertion's value; in particular consecutive
insertions at identical bounds overwrite, the last one winning.  (The starting
tree `t` is arbitrary, so this covers any earlier insertion sequence.) -/
theorem claim_c1 {T : Type} (t : VoxelTree T) (b : VoxelBounds) (w : T) :
    (insertLeaf t b w).get b = some w := by
  unfold insertLeaf
  rw [mutTerm_eq_listMut]
  unfold VoxelTree.get
  rw [findTerm_eq_listFind]
  simp only [VoxelTree.contains_bounds]
  have hc := grow_post t b
  rw [VoxelTree.contains_bounds] at hc
  rw [hc, if_neg (by simp)]
  rw [listFind_listMut_self _ _ _ (pathAt_ne_nil _ _)]

/-- C1, as stated, is false on the code: replaying `simple_test` from
src/lib.rs, the last value inserted at exactly `(2,0,4,4)` is `3` and no later
insertion uses those bounds, yet `get (2,0,4,4)` is `none` (the later
insertions at `(9,0,16,2)` destroyed that subtree), not `some 3`. -/
theorem claim_c1_cex :
    (insertLeaf (insertLeaf (insertLeaf (insertLeaf (insertLeaf
      (VoxelTree.new : VoxelTree Nat)
      ⟨1, 1, 1, 0⟩ 1) ⟨8, -8, 4, 0⟩ 2) ⟨2, 0, 4, 4⟩ 3) ⟨9, 0, 16, 2⟩ 4)
      ⟨9, 0, 16, 2⟩ 5).get ⟨2, 0, 4, 4⟩ = none := by
  decide

/-- C3: `grow_to_hold` terminates for every tree and bounds (it is a total
function of this development), on return the bounds is contained, and it
increments `lg_size` by exactly 1 per doubling iteration: the result is
`lg_size + n` after `n` root rebuilds, where every smaller size failed the
containment test.  Hence `get_mut_or_create` never fails for out-of-range
coordinates. -/
theorem claim_c3 {T : Type} (t : VoxelTree T) (v : VoxelBounds) :
    (t.grow_to_hold v).contains_bounds v = true ∧
    ∃ n, t.grow_to_hold v = ⟨t.lg_size + n, growStepBranches^[n] t.contents⟩ ∧
      ∀ m, m < n → containsAt (t.lg_size + m) v = false := by
  refine ⟨grow_post t v, ?_⟩
  obtain ⟨n, h1, h2, _⟩ := grow_to_hold_spec t v
  exact ⟨n, h1, h2⟩

/-! ### The antipodal relocation of the doubling step -/

/-- A 3-bit octant code `c` (`c < 8`) as a selector: bit 2 is the x half,
bit 1 the y half, bit 0 the z half, matching the slot order
`lll llh lhl lhh hll hlh hhl hhh`. -/
def selOfCode (c : Nat) : Sel :=
  (decide (c / 4 % 2 = 1), decide (c / 2 % 2 = 1), decide (c % 2 = 1))

/-- Slot of a `Branches` by 3-bit octant code. -/
def Branches.slot {T : Type} (br : Branches T) (c : Nat) : TreeBody T :=
  br.sel3 (selOfCode c)

/-- Update of a `Branches` slot by 3-bit octant code. -/
def Branches.updSlot {T : Type} (br : Branches T) (c : Nat) (n : TreeBody T) : Branches T :=
  br.upd3 (selOfCode c) n

/-- C4: each doubling step of `grow_to_hold` puts the old root's content at
slot `c` into a new top-level `Branch` at slot `c`, as the single occupied
slot of that fresh `Branches`, at the antipodal position `c XOR 0b111`; all
other slots of the fresh `Branches` are `Empty`.  The last conjunct ties the
rebuild to `grow_to_hold`: while the bounds is not contained, `grow_to_hold`
proceeds by exactly this doubling step. -/
theorem claim_c4 {T : Type} (br : Branches T) (c : Nat) (hc : c < 8) :
    (growStepBranches br).slot c =
      TreeBody.branch (Branches.empty.updSlot (c ^^^ 7) (br.slot c)) ∧
    (∀ j, j < 8 → j ≠ c ^^^ 7 →
      (Branches.empty.updSlot (c ^^^ 7) (br.slot c)).slot j = TreeBody.Empty) ∧
    ∀ (t : VoxelTree T) (v : VoxelBounds), t.contains_bounds v = false →
      t.grow_to_hold v = (growStep t).grow_to_hold v := by
  refine ⟨?_, ?_, fun t v h => grow_shift t v h⟩
  · interval_cases c <;> rfl
  · interval_cases c <;>
      (intro j hj hne
       interval_cases j <;> first | rfl | (exact absurd rfl hne))

/-- Witness for C4 at the concrete code `c = 0` on a concrete `Branches`. -/
theorem claim_c4_witness :
    ((0 : Nat) < 8) ∧
    ((growStepBranches (Branches.empty.updSlot 0 (.Leaf (5 : Nat)))).slot 0 =
      TreeBody.branch (Branches.empty.updSlot (0 ^^^ 7)
        ((Branches.empty.updSlot 0 (.Leaf (5 : Nat))).slot 0)) ∧
    (∀ j, j < 8 → j ≠ 0 ^^^ 7 →
      (Branches.empty.updSlot (0 ^^^ 7)
        ((Branches.empty.updSlot 0 (.Leaf (5 : Nat))).slot 0)).slot j = TreeBody.Empty) ∧
    ∀ (t : VoxelTree Nat) (v : VoxelBounds), t.contains_bounds v = false →
      t.grow_to_hold v = (growStep t).grow_to_hold v) :=
  ⟨by decide, claim_c4 (Branches.empty.updSlot 0 (.Leaf (5 : Nat))) 0 (by decide)⟩

/-! ### Containment, characterized -/

theorem contains_axis_pair (k s : Nat) (c : Int) :
    (¬ (c ≤ -((2 ^ k : Int) / 2 ^ s)) ∧ c + 1 ≤ (2 ^ k : Int) / 2 ^ s) ↔
    (-((2 : Int) ^ k) < c * 2 ^ s ∧ (c + 1) * 2 ^ s ≤ 2 ^ k) := by
  rw [int_pow_ediv]
  have hps : (0 : Int) < 2 ^ s := by positivity
  by_cases hks : s ≤ k
  · rw [if_pos hks]
    have hsplit : ((2 : Int) ^ (k - s)) * 2 ^ s = 2 ^ k := by
      rw [← pow_add]
      congr 1
      omega
    constructor
    · rintro ⟨h1, h2⟩
      rw [not_le] at h1
      constructor
      · have h1m := (mul_lt_mul_right hps).mpr h1
        rw [neg_mul, hsplit] at h1m
        exact h1m
      · have h2m := (mul_le_mul_right hps).mpr h2
        rw [hsplit] at h2m
        exact h2m
    · rintro ⟨h1, h2⟩
      constructor
      · rw [not_le]
        have h1' : -((2:Int) ^ (k - s)) * 2 ^ s < c * 2 ^ s := by
          rw [neg_mul, hsplit]
          exact h1
        exact lt_of_mul_lt_mul_right h1' hps.le
      · have h2' : (c + 1) * 2 ^ s ≤ 2 ^ (k - s) * 2 ^ s := by
          rw [hsplit]
          exact h2
        exact le_of_mul_le_mul_right h2' hps
  · rw [if_neg hks]
    have hkk : (2 : Int) ^ k < 2 ^ s := pow_lt_pow_right₀ (by norm_num) (by omega)
    constructor
    · rintro ⟨h1, h2⟩
      rw [neg_zero, not_le] at h1
      omega
    · rintro ⟨h1, h2⟩
      have hc1 : c + 1 ≤ 0 := by
        by_contra hc
        push_neg at hc
        have : (1 : Int) * 2 ^ s ≤ (c + 1) * 2 ^ s :=
          mul_le_mul_of_nonneg_right (by omega) hps.le
        rw [one_mul] at this
        omega
      have hc2 : c * 2 ^ s ≤ (-1) * 2 ^ s :=
        mul_le_mul_of_nonneg_right (by omega) hps.le
      rw [neg_one_mul] at hc2
      omega

/-- The containment predicate in the spec's geometric terms: a bounds with
negative `lg_size` is always contained; otherwise, after normalizing the
bounds' coordinates to the tree's unit scale, each axis must lie inside the
cube `[-2^k, 2^k)` — strictly above the low face (the code rejects
non-strictly, `x <= low`) and with the far corner non-strictly below the
high face. -/
def containsSpec (k : Nat) (v : VoxelBounds) : Prop :=
  v.lg_size < 0 ∨
    (0 ≤ v.lg_size ∧
      (-((2 : Int) ^ k) < v.x * 2 ^ v.lg_size.toNat ∧
        (v.x + 1) * 2 ^ v.lg_size.toNat ≤ 2 ^ k) ∧
      (-((2 : Int) ^ k) < v.y * 2 ^ v.lg_size.toNat ∧
        (v.y + 1) * 2 ^ v.lg_size.toNat ≤ 2 ^ k) ∧
      (-((2 : Int) ^ k) < v.z * 2 ^ v.lg_size.toNat ∧
        (v.z + 1) * 2 ^ v.lg_size.toNat ≤ 2 ^ k))

/-- C2: `contains_bounds` returns true exactly when the bounds lies in the
cube `[-2^k, 2^k)` after normalizing its scale (negative-`lg_size` bounds
always contained), and the check is symmetric: at scale 0 it is true exactly
at the boundary coordinates `±(2^k - 1)` and false one unit beyond, `±2^k`. -/
theorem claim_c2 {T : Type} (t : VoxelTree T) (v : VoxelBounds) :
    (t.contains_bounds v = true ↔ containsSpec t.lg_size v) ∧
    t.contains_bounds ⟨2 ^ t.lg_size - 1, 0, 0, 0⟩ = true ∧
    t.contains_bounds ⟨2 ^ t.lg_size, 0, 0, 0⟩ = false ∧
    t.contains_bounds ⟨-(2 ^ t.lg_size - 1), 0, 0, 0⟩ = true ∧
    t.contains_bounds ⟨-(2 ^ t.lg_size), 0, 0, 0⟩ = false := by
  have hp : (0 : Int) < 2 ^ t.lg_size := by positivity
  have hone : ∀ a : Int, a / 2 ^ ((0 : Int).toNat) = a := by
    intro a
    show a / 2 ^ (0 : Nat) = a
    rw [pow_zero, Int.ediv_one]
  refine ⟨?_, ?_, ?_, ?_, ?_⟩
  · rw [VoxelTree.contains_bounds, containsAt, containsSpec]
    by_cases hs : v.lg_size < 0
    · simp [hs]
    · rw [if_neg hs]
      have psx := contains_axis_pair t.lg_size v.lg_size.toNat v.x
      have psy := contains_axis_pair t.lg_size v.lg_size.toNat v.y
      have psz := contains_axis_pair t.lg_size v.lg_size.toNat v.z
      dsimp only
      by_cases hA : v.x ≤ -((2 ^ t.lg_size : Int) / 2 ^ v.lg_size.toNat) ∨
          v.y ≤ -((2 ^ t.lg_size : Int) / 2 ^ v.lg_size.toNat) ∨
          v.z ≤ -((2 ^ t.lg_size : Int) / 2 ^ v.lg_size.toNat)
      · rw [if_pos hA]
        simp only [Bool.false_eq_true, false_iff]
        rintro (h | ⟨h0, hx, hy, hz⟩)
        · exact hs h
        · rcases hA with h' | h' | h'
          · exact (psx.mpr hx).1 h'
          · exact (psy.mpr hy).1 h'
          · exact (psz.mpr hz).1 h'
      · rw [if_neg hA]
        push_neg at hA
        obtain ⟨hx', hy', hz'⟩ := hA
        simp only [Bool.and_eq_true, decide_eq_true_eq]
        constructor
        · rintro ⟨⟨h1, h2⟩, h3⟩
          exact Or.inr ⟨not_lt.mp hs, psx.mp ⟨not_le.mpr (not_le.mp (by omega)), h1⟩,
            psy.mp ⟨by omega, h2⟩, psz.mp ⟨by omega, h3⟩⟩
        · rintro (h | ⟨h0, hx, hy, hz⟩)
          · exact absurd h hs
          · exact ⟨⟨(psx.mpr hx).2, (psy.mpr hy).2⟩, (psz.mpr hz).2⟩
  · rw [VoxelTree.contains_bounds, containsAt]
    rw [if_neg (by norm_num)]
    dsimp only
    rw [hone, if_neg (by omega)]
    simp only [Bool.and_eq_true, decide_eq_true_eq]
    omega
  · rw [VoxelTree.contains_bounds, containsAt]
    rw [if_neg (by norm_num)]
    dsimp only
    rw [hone, if_neg (by omega)]
    simp [show ¬((2 : Int) ^ t.lg_size + 1 ≤ 2 ^ t.lg_size) from by omega]
  · rw [VoxelTree.contains_bounds, containsAt]
    rw [if_neg (by norm_num)]
    dsimp only
    rw [hone, if_neg (by omega)]
    simp only [Bool.and_eq_true, decide_eq_true_eq]
    omega
  · rw [VoxelTree.contains_bounds, containsAt]
    rw [if_neg (by norm_num)]
    dsimp only
    rw [hone, if_pos (by omega)]

/-! ### Destructive insertion along the path, and the untouched terminal -/

/-- After inserting along `p ++ r`, every node at a proper initial segment
`p` of the path is a `Branch` (the autovivified interior). -/
theorem listFind_listMut_longer {T : Type} (w : T) :
    ∀ (p : List Sel) (r : List Sel) (br : Branches T), p ≠ [] → r ≠ [] →
      ∃ bs, listFind (listMut (fun _ => .Leaf w) br (p ++ r)) p =
        some (TreeBody.branch bs) := by
  intro p
  induction p with
  | nil => intro r br hp hr; exact absurd rfl hp
  | cons s p1 ih =>
    intro r br _ hr
    cases p1 with
    | nil =>
      cases r with
      | nil => exact absurd rfl hr
      | cons r0 rs =>
        refine ⟨listMut (fun _ => .Leaf w) (br.sel3 s).toBranches (r0 :: rs), ?_⟩
        show listFind (listMut (fun _ => .Leaf w) br (s :: r0 :: rs)) [s] = _
        rw [listMut_cons_cons, listFind_single, sel3_upd3_same]
    | cons s1 p2 =>
      have hne : (s1 :: p2) ++ r ≠ [] := by simp
      obtain ⟨bs, hbs⟩ := ih r (br.sel3 s).toBranches (List.cons_ne_nil _ _) hr
      refine ⟨bs, ?_⟩
      show listFind (listMut (fun _ => .Leaf w) br (s :: ((s1 :: p2) ++ r))) (s :: s1 :: p2) = _
      rcases hcons : (s1 :: p2) ++ r with _ | ⟨q0, qs⟩
      · exact absurd hcons hne
      · rw [listMut_cons_cons, listFind_cons_cons, sel3_upd3_same,
          listFind_branch_match, ← hcons]
        exact hbs

/-- After inserting a leaf at `p`, reading any strictly longer path `p ++ r`
fails: the traversal runs into the just-written `Leaf` and cannot step. -/
theorem listFind_listMut_shorter {T : Type} (w : T) :
    ∀ (p : List Sel) (r : List Sel) (br : Branches T), p ≠ [] → r ≠ [] →
      listFind (listMut (fun _ => .Leaf w) br p) (p ++ r) = none := by
  intro p
  induction p with
  | nil => intro r br hp hr; exact absurd rfl hp
  | cons s p1 ih =>
    intro r br _ hr
    cases p1 with
    | nil =>
      cases r with
      | nil => exact absurd rfl hr
      | cons r0 rs =>
        show listFind (listMut (fun _ => .Leaf w) br [s]) (s :: r0 :: rs) = none
        rw [listMut_single, listFind_cons_cons, sel3_upd3_same]
    | cons s1 p2 =>
      show listFind (listMut (fun _ => .Leaf w) br (s :: s1 :: p2)) (s :: ((s1 :: p2) ++ r))
        = none
      rw [List.cons_append, listMut_cons_cons, listFind_cons_cons, sel3_upd3_same,
        listFind_branch_match]
      exact ih r _ (List.cons_ne_nil _ _) hr

/-- `get` fails whenever the node at the bounds' selector path is not a leaf. -/
theorem get_eq_none_of_not_leaf {T : Type} (t : VoxelTree T) (v : VoxelBounds)
    (h : ∀ w, listFind t.contents (pathAt t.lg_size v) ≠ some (.Leaf w)) :
    t.get v = none := by
  unfold VoxelTree.get
  rw [findTerm_eq_listFind]
  by_cases hcb : t.contains_bounds v = false
  · rw [if_pos hcb]
  · rw [if_neg hcb]
    rcases hfind : listFind t.contents (pathAt t.lg_size v) with _ | node
    · rfl
    · cases node with
      | Empty => rfl
      | Leaf w => exact absurd hfind (h w)
      | Branch a b c d e' f' g' h' => rfl

/-- `get` succeeds exactly when the bounds is contained and the node at its
selector path is a leaf. -/
theorem get_eq_some_iff {T : Type} (t : VoxelTree T) (v : VoxelBounds) (w : T) :
    t.get v = some w ↔
      (t.contains_bounds v = true ∧
       listFind t.contents (pathAt t.lg_size v) = some (.Leaf w)) := by
  unfold VoxelTree.get
  rw [findTerm_eq_listFind]
  by_cases hcb : t.contains_bounds v = false
  · rw [if_pos hcb]
    simp [hcb]
  · rw [if_neg hcb]
    have hct : t.contains_bounds v = true := by
      cases hcv : t.contains_bounds v
      · exact absurd hcv hcb
      · rfl
    rcases hfind : listFind t.contents (pathAt t.lg_size v) with _ | node
    · simp [hct]
    · cases node with
      | Empty => simp [hct]
      | Leaf w' => simp [hct]
      | Branch a b c d e' f' g' h' => simp [hct]

/-- C5: if the selector path of the coarse bounds `bc` is a proper initial
segment of the path of the finer bounds `bf` (both contained), then inserting
at `bf` turns the node at `bc` into a `Branch`, so `get bc` fails afterwards;
symmetrically, inserting a leaf at `bc` destroys the subtree below it, so
`get bf` fails afterwards.  No assumption on the previous content is needed:
the erasure happens whatever was there. -/
theorem claim_c5 {T : Type} (t : VoxelTree T) (bf bc : VoxelBounds) (r : List Sel)
    (vf vc : T)
    (hcf : t.contains_bounds bf = true) (hcc : t.contains_bounds bc = true)
    (hpath : pathAt t.lg_size bf = pathAt t.lg_size bc ++ r) (hr : r ≠ []) :
    (insertLeaf t bf vf).get bc = none ∧ (insertLeaf t bc vc).get bf = none := by
  constructor
  · unfold insertLeaf
    rw [mutTerm_eq_listMut, grow_noop t bf hcf]
    apply get_eq_none_of_not_leaf
    intro w
    show listFind (listMut (fun _ => .Leaf vf) t.contents (pathAt t.lg_size bf))
      (pathAt t.lg_size bc) ≠ some (.Leaf w)
    rw [hpath]
    obtain ⟨bs, hbs⟩ :=
      listFind_listMut_longer vf (pathAt t.lg_size bc) r t.contents
        (pathAt_ne_nil _ _) hr
    rw [hbs]
    intro hcontra
    rw [TreeBody.branch] at hcontra
    exact absurd (Option.some.inj hcontra) (by intro h'; cases h')
  · unfold insertLeaf
    rw [mutTerm_eq_listMut, grow_noop t bc hcc]
    apply get_eq_none_of_not_leaf
    intro w
    show listFind (listMut (fun _ => .Leaf vc) t.contents (pathAt t.lg_size bc))
      (pathAt t.lg_size bf) ≠ some (.Leaf w)
    rw [hpath, listFind_listMut_shorter vc _ r t.contents (pathAt_ne_nil _ _) hr]
    intro hcontra
    cases hcontra

/-- Witness for C5: a unit-scale bounds nested inside a `lg_size = 1` bounds,
in a tree that contains both. -/
theorem claim_c5_witness :
    ((insertLeaf (VoxelTree.new : VoxelTree Nat) ⟨0, 0, 0, 1⟩ 7).contains_bounds
        ⟨0, 0, 0, 0⟩ = true) ∧
    ((insertLeaf (VoxelTree.new : VoxelTree Nat) ⟨0, 0, 0, 1⟩ 7).contains_bounds
        ⟨0, 0, 0, 1⟩ = true) ∧
    (pathAt (insertLeaf (VoxelTree.new : VoxelTree Nat) ⟨0, 0, 0, 1⟩ 7).lg_size
        ⟨0, 0, 0, 0⟩ =
      pathAt (insertLeaf (VoxelTree.new : VoxelTree Nat) ⟨0, 0, 0, 1⟩ 7).lg_size
        ⟨0, 0, 0, 1⟩ ++ [(false, false, false)]) ∧
    (([(false, false, false)] : List Sel) ≠ []) ∧
    ((insertLeaf (insertLeaf (VoxelTree.new : VoxelTree Nat) ⟨0, 0, 0, 1⟩ 7)
        ⟨0, 0, 0, 0⟩ 9).get ⟨0, 0, 0, 1⟩ = none ∧
     (insertLeaf (insertLeaf (VoxelTree.new : VoxelTree Nat) ⟨0, 0, 0, 1⟩ 7)
        ⟨0, 0, 0, 1⟩ 9).get ⟨0, 0, 0, 0⟩ = none) :=
  ⟨by decide, by decide, by decide, by decide,
   claim_c5 (insertLeaf (VoxelTree.new : VoxelTree Nat) ⟨0, 0, 0, 1⟩ 7)
     ⟨0, 0, 0, 0⟩ ⟨0, 0, 0, 1⟩ [(false, false, false)] 9 9
     (by decide) (by decide) (by decide) (by decide)⟩

/-- If the path to a node exists (the traversal found something), rebuilding
along it with the identity terminal action changes nothing. -/
theorem listMut_id_of_find {T : Type} :
    ∀ (p : List Sel) (br : Branches T) (node : TreeBody T),
      listFind br p = some node → listMut id br p = br := by
  intro p
  induction p with
  | nil =>
    intro br node h
    cases h
  | cons s p1 ih =>
    intro br node h
    cases p1 with
    | nil => rw [listMut_single, id_eq, upd3_sel3_self]
    | cons s1 p2 =>
      rw [listFind_cons_cons] at h
      cases hb : br.sel3 s with
      | Empty => rw [hb] at h; cases h
      | Leaf w => rw [hb] at h; cases h
      | Branch a b c d e' f' g' h' =>
        rw [hb] at h
        have hM : listMut id (br.sel3 s).toBranches (s1 :: p2) = (br.sel3 s).toBranches := by
          rw [hb]
          exact ih _ node h
        have hbr : TreeBody.branch ((br.sel3 s).toBranches) = br.sel3 s := by
          rw [hb]
          rfl
        rw [listMut_cons_cons, hM, hbr, upd3_sel3_self]

/-- C10: when a leaf already sits at exactly the requested bounds,
`get_mut_or_create` is read-only: the tree is unchanged, the reference it
returns addresses that very `Leaf`, and a subsequent `get` still sees the
old value (until the caller assigns through the reference). -/
theorem claim_c10 {T : Type} (t : VoxelTree T) (b : VoxelBounds) (w : T)
    (h : t.get b = some w) :
    touch t b = t ∧ findTerm t b = some (.Leaf w) ∧ (touch t b).get b = some w := by
  obtain ⟨hc, hfind⟩ := (get_eq_some_iff t b w).mp h
  have htouch : touch t b = t := by
    unfold touch
    rw [mutTerm_eq_listMut, grow_noop t b hc, listMut_id_of_find _ _ _ hfind]
  refine ⟨htouch, ?_, ?_⟩
  · rw [findTerm_eq_listFind]
    exact hfind
  · rw [htouch]
    exact h

/-- Witness for C10 at a concrete tree holding `Leaf 5` at `(1,1,1,0)`. -/
theorem claim_c10_witness :
    ((insertLeaf (VoxelTree.new : VoxelTree Nat) ⟨1, 1, 1, 0⟩ 5).get ⟨1, 1, 1, 0⟩
      = some 5) ∧
    (touch (insertLeaf (VoxelTree.new : VoxelTree Nat) ⟨1, 1, 1, 0⟩ 5) ⟨1, 1, 1, 0⟩ =
        insertLeaf (VoxelTree.new : VoxelTree Nat) ⟨1, 1, 1, 0⟩ 5 ∧
      findTerm (insertLeaf (VoxelTree.new : VoxelTree Nat) ⟨1, 1, 1, 0⟩ 5) ⟨1, 1, 1, 0⟩ =
        some (.Leaf 5) ∧
      (touch (insertLeaf (VoxelTree.new : VoxelTree Nat) ⟨1, 1, 1, 0⟩ 5)
        ⟨1, 1, 1, 0⟩).get ⟨1, 1, 1, 0⟩ = some 5) :=
  ⟨by decide,
   claim_c10 (insertLeaf (VoxelTree.new : VoxelTree Nat) ⟨1, 1, 1, 0⟩ 5)
     ⟨1, 1, 1, 0⟩ 5 (by decide)⟩

/-! ### Scale exactness on a fresh tree -/

theorem int_two_pow_toNat (E : Nat) : ((2 : Int) ^ E).toNat = 2 ^ E := by
  have h : ((2 : Int) ^ E) = ((2 ^ E : Nat) : Int) := by
    push_cast
    ring
  rw [h, Int.toNat_natCast]

theorem selsOfMaskF_length_pow (v : VoxelBounds) :
    ∀ (E fuel : Nat), ((2 : Int) ^ E).toNat < fuel →
      (selsOfMaskF fuel v ((2 : Int) ^ E)).length = E + 1 := by
  intro E
  induction E with
  | zero =>
    intro fuel hf
    rw [int_two_pow_toNat] at hf
    cases fuel with
    | zero => exact absurd hf (Nat.not_lt_zero _)
    | succ f =>
      show (selMask _ v :: (if (2:Int) ^ 0 / 2 = 0 then [] else _)).length = 1
      rw [if_pos (by norm_num)]
      rfl
  | succ E ih =>
    intro fuel hf
    rw [int_two_pow_toNat] at hf
    cases fuel with
    | zero => exact absurd hf (Nat.not_lt_zero _)
    | succ f =>
      have hdiv : ((2 : Int) ^ (E + 1)) / 2 = 2 ^ E := by
        rw [pow_succ, Int.mul_ediv_cancel _ (by norm_num)]
      show (selMask _ v :: (if (2:Int) ^ (E+1) / 2 = 0 then [] else _)).length = E + 1 + 1
      rw [hdiv, if_neg (by positivity), List.length_cons]
      have hlt : ((2 : Int) ^ E).toNat < f := by
        rw [int_two_pow_toNat]
        have hp : (0 : Nat) < 2 ^ E := pow_pos (by norm_num) E
        have h1 : (2 : Nat) ^ (E + 1) = 2 ^ E * 2 := by rw [pow_succ]
        omega
      rw [ih f hlt]

theorem pathAt_length (lg : Nat) (v : VoxelBounds) (hs : 0 ≤ v.lg_size)
    (hsl : v.lg_size.toNat ≤ lg) :
    (pathAt lg v).length = lg - v.lg_size.toNat + 1 := by
  unfold pathAt
  dsimp only
  rw [find_mask_eq_of_nonneg lg v hs]
  by_cases h : v.lg_size.toNat + 1 ≤ lg
  · rw [if_pos h, if_neg (by positivity), List.length_cons,
      selsOfMaskF_length_pow v _ _ (by omega)]
    omega
  · rw [if_neg h, if_pos rfl]
    show 1 = lg - v.lg_size.toNat + 1
    omega

theorem containsAt_le_lg (lg : Nat) (v : VoxelBounds) (hs : 0 ≤ v.lg_size)
    (h : containsAt lg v = true) : v.lg_size.toNat ≤ lg := by
  by_contra hgt
  push_neg at hgt
  unfold containsAt at h
  rw [if_neg (by omega)] at h
  dsimp only at h
  rw [int_pow_ediv, if_neg (show ¬(v.lg_size.toNat ≤ lg) by omega)] at h
  by_cases hA : v.x ≤ -(0:Int) ∨ v.y ≤ -(0:Int) ∨ v.z ≤ -(0:Int)
  · rw [if_pos hA] at h
    cases h
  · rw [if_neg hA] at h
    simp only [Bool.and_eq_true, decide_eq_true_eq] at h
    push_neg at hA
    omega

/-- Leaf-freedom of a node: no `Leaf` anywhere below. -/
def TreeBody.leafFree {T : Type} : TreeBody T → Bool
  | .Empty => true
  | .Leaf _ => false
  | .Branch a b c d e' f' g' h' =>
    a.leafFree && b.leafFree && c.leafFree && d.leafFree &&
    e'.leafFree && f'.leafFree && g'.leafFree && h'.leafFree

/-- Leaf-freedom of all eight slots. -/
def Branches.leafFree {T : Type} (br : Branches T) : Bool :=
  br.lll.leafFree && br.llh.leafFree && br.lhl.leafFree && br.lhh.leafFree &&
  br.hll.leafFree && br.hlh.leafFree && br.hhl.leafFree && br.hhh.leafFree

theorem sel3_leafFree {T : Type} (br : Branches T) (s : Sel)
    (h : br.leafFree = true) : (br.sel3 s).leafFree = true := by
  simp only [Branches.leafFree, Bool.and_eq_true] at h
  obtain ⟨a, b, c⟩ := s
  cases a <;> cases b <;> cases c <;> simp only [Branches.sel3] <;> tauto

theorem toBranches_leafFree {T : Type} (x : TreeBody T) (h : x.leafFree = true) :
    x.toBranches.leafFree = true := by
  cases x with
  | Empty => rfl
  | Leaf w => cases h
  | Branch a b c d e' f' g' h' => exact h

theorem branches_leafFree_of_branch {T : Type} (a b c d e' f' g' h' : TreeBody T)
    (h : (TreeBody.Branch a b c d e' f' g' h').leafFree = true) :
    (Branches.mk a b c d e' f' g' h').leafFree = true := h

theorem growStepBranches_leafFree {T : Type} (c : Branches T)
    (h : c.leafFree = true) : (growStepBranches c).leafFree = true := by
  simp only [Branches.leafFree, Bool.and_eq_true] at h
  simp only [growStepBranches, Branches.leafFree, TreeBody.branch, TreeBody.leafFree,
    Branches.empty, Bool.and_eq_true, Bool.true_and, Bool.and_true]
  tauto

theorem growAux_leafFree {T : Type} (v : VoxelBounds) :
    ∀ (fuel : Nat) (t : VoxelTree T), t.contents.leafFree = true →
      (growAux fuel t v).contents.leafFree = true := by
  intro fuel
  induction fuel with
  | zero => intro t h; exact h
  | succ fuel ih =>
    intro t h
    show (if t.contains_bounds v then t else growAux fuel (growStep t) v).contents.leafFree
      = true
    by_cases hc : t.contains_bounds v
    · rw [if_pos hc]; exact h
    · rw [if_neg hc]
      exact ih (growStep t) (growStepBranches_leafFree t.contents h)

/-- In a leaf-free forest no path reaches a leaf. -/
theorem listFind_no_leaf {T : Type} :
    ∀ (p : List Sel) (br : Branches T), br.leafFree = true →
      ∀ w : T, listFind br p ≠ some (.Leaf w) := by
  intro p
  induction p with
  | nil => intro br _ w h; cases h
  | cons s rest ih =>
    intro br hbr w h
    cases rest with
    | nil =>
      rw [listFind_single] at h
      have := sel3_leafFree br s hbr
      rw [Option.some.inj h] at this
      cases this
    | cons s1 rest1 =>
      rw [listFind_cons_cons] at h
      cases hb : br.sel3 s with
      | Empty => rw [hb] at h; cases h
      | Leaf w' => rw [hb] at h; cases h
      | Branch a b c d e' f' g' h' =>
        rw [hb] at h
        have hlf : (Branches.mk a b c d e' f' g' h').leafFree = true := by
          have := sel3_leafFree br s hbr
          rw [hb] at this
          exact this
        exact ih _ hlf w h

/-- After inserting a single leaf at path `p` into a leaf-free forest, no
path other than `p` reaches a leaf. -/
theorem listFind_listMut_ne {T : Type} (w' : T) :
    ∀ (p' p : List Sel) (br : Branches T), br.leafFree = true → p ≠ [] → p' ≠ p →
      ∀ w : T, listFind (listMut (fun _ => .Leaf w') br p) p' ≠ some (.Leaf w) := by
  intro p'
  induction p' with
  | nil =>
    intro p br _ _ _ w h
    cases p with
    | nil => cases h
    | cons s rest => cases h
  | cons s' rest' ih =>
    intro p br hbr hp hne w h
    cases p with
    | nil => exact absurd rfl hp
    | cons s rest =>
      cases rest' with
      | nil =>
        cases rest with
        | nil =>
          have hss : s' ≠ s := by
            intro hss
            exact hne (by rw [hss])
          rw [listMut_single, listFind_single, sel3_upd3_other _ _ hss] at h
          have := sel3_leafFree br s' hbr
          rw [Option.some.inj h] at this
          cases this
        | cons s1 p2 =>
          by_cases hss : s' = s
          · subst hss
            rw [listMut_cons_cons, listFind_single, sel3_upd3_same] at h
            rw [TreeBody.branch] at h
            cases h
          · rw [listMut_cons_cons, listFind_single, sel3_upd3_other _ _ hss] at h
            have := sel3_leafFree br s' hbr
            rw [Option.some.inj h] at this
            cases this
      | cons s1' rest2' =>
        cases rest with
        | nil =>
          by_cases hss : s' = s
          · subst hss
            rw [listMut_single, listFind_cons_cons, sel3_upd3_same] at h
            cases h
          · rw [listMut_single, listFind_cons_cons, sel3_upd3_other _ _ hss] at h
            cases hb : br.sel3 s' with
            | Empty => rw [hb] at h; cases h
            | Leaf w0 => rw [hb] at h; cases h
            | Branch a b c d e' f' g' h' =>
              rw [hb] at h
              have hlf : (Branches.mk a b c d e' f' g' h').leafFree = true := by
                have := sel3_leafFree br s' hbr
                rw [hb] at this
                exact this
              exact listFind_no_leaf _ _ hlf w h
        | cons s1 p2 =>
          by_cases hss : s' = s
          · subst hss
            rw [listMut_cons_cons, listFind_cons_cons, sel3_upd3_same,
              listFind_branch_match] at h
            have htail : (s1' :: rest2') ≠ (s1 :: p2) := by
              intro heq
              exact hne (by rw [heq])
            exact ih (s1 :: p2) (br.sel3 s').toBranches
              (toBranches_leafFree _ (sel3_leafFree br s' hbr))
              (List.cons_ne_nil _ _) htail w h
          · rw [listMut_cons_cons, listFind_cons_cons, sel3_upd3_other _ _ hss] at h
            cases hb : br.sel3 s' with
            | Empty => rw [hb] at h; cases h
            | Leaf w0 => rw [hb] at h; cases h
            | Branch a b c d e' f' g' h' =>
              rw [hb] at h
              have hlf : (Branches.mk a b c d e' f' g' h').leafFree = true := by
                have := sel3_leafFree br s' hbr
                rw [hb] at this
                exact this
              exact listFind_no_leaf _ _ hlf w h

/-- C6 (amended): on a fresh tree, inserting at `(x,y,z,s)` and querying
`(x,y,z,s')` with `s ≠ s'` returns `none`, provided both scales are
non-negative.  (The proof needs no relation between the coordinates at all:
the two selector paths have different lengths, and the only leaf in the tree
sits at the end of the insertion path.) -/
theorem claim_c6 {T : Type} (b b' : VoxelBounds) (w : T)
    (hx : b'.x = b.x) (hy : b'.y = b.y) (hz : b'.z = b.z)
    (hs : 0 ≤ b.lg_size) (hs' : 0 ≤ b'.lg_size) (hne : b.lg_size ≠ b'.lg_size) :
    (insertLeaf (VoxelTree.new : VoxelTree T) b w).get b' = none := by
  unfold insertLeaf
  rw [mutTerm_eq_listMut]
  by_cases hcb' : containsAt ((VoxelTree.new : VoxelTree T).grow_to_hold b).lg_size b' = true
  · apply get_eq_none_of_not_leaf
    intro w0
    show listFind
        (listMut (fun _ => TreeBody.Leaf w)
          ((VoxelTree.new : VoxelTree T).grow_to_hold b).contents
          (pathAt ((VoxelTree.new : VoxelTree T).grow_to_hold b).lg_size b))
        (pathAt ((VoxelTree.new : VoxelTree T).grow_to_hold b).lg_size b') ≠
      some (.Leaf w0)
    have hcf : containsAt ((VoxelTree.new : VoxelTree T).grow_to_hold b).lg_size b = true :=
      grow_post VoxelTree.new b
    have hsl := containsAt_le_lg _ b hs hcf
    have hsl' := containsAt_le_lg _ b' hs' hcb'
    have hlen : (pathAt ((VoxelTree.new : VoxelTree T).grow_to_hold b).lg_size b').length ≠
        (pathAt ((VoxelTree.new : VoxelTree T).grow_to_hold b).lg_size b).length := by
      rw [pathAt_length _ _ hs hsl, pathAt_length _ _ hs' hsl']
      omega
    exact listFind_listMut_ne w _ _ _
      (growAux_leafFree b (growFuel b) VoxelTree.new rfl)
      (pathAt_ne_nil _ _) (fun heq => hlen (by rw [heq])) w0
  · unfold VoxelTree.get
    simp only [VoxelTree.contains_bounds]
    have hfalse : containsAt ((VoxelTree.new : VoxelTree T).grow_to_hold b).lg_size b'
        = false := by
      cases hcv : containsAt ((VoxelTree.new : VoxelTree T).grow_to_hold b).lg_size b'
      · rfl
      · exact absurd hcv hcb'
    rw [if_pos hfalse]

/-- Witness for C6: scales 1 and 0 at the same coordinates. -/
theorem claim_c6_witness :
    ((⟨4, 4, -4, 0⟩ : VoxelBounds).x = (⟨4, 4, -4, 1⟩ : VoxelBounds).x) ∧
    ((⟨4, 4, -4, 0⟩ : VoxelBounds).y = (⟨4, 4, -4, 1⟩ : VoxelBounds).y) ∧
    ((⟨4, 4, -4, 0⟩ : VoxelBounds).z = (⟨4, 4, -4, 1⟩ : VoxelBounds).z) ∧
    (0 ≤ (⟨4, 4, -4, 1⟩ : VoxelBounds).lg_size) ∧
    (0 ≤ (⟨4, 4, -4, 0⟩ : VoxelBounds).lg_size) ∧
    ((⟨4, 4, -4, 1⟩ : VoxelBounds).lg_size ≠ (⟨4, 4, -4, 0⟩ : VoxelBounds).lg_size) ∧
    (insertLeaf (VoxelTree.new : VoxelTree Nat) ⟨4, 4, -4, 1⟩ 1).get ⟨4, 4, -4, 0⟩
      = none :=
  ⟨rfl, rfl, rfl, by decide, by decide, by decide,
   claim_c6 ⟨4, 4, -4, 1⟩ ⟨4, 4, -4, 0⟩ 1 rfl rfl rfl
     (by decide) (by decide) (by decide)⟩

/-- C6, as stated, is false on the code for negative scales: on a fresh tree
(`lg_size = 0`) the traversal mask is 0 both for scale `0` and for scale `-1`,
so both address the same terminal slot: inserting at `(0,0,0,0)` and querying
`(0,0,0,-1)` returns the value instead of not-found. -/
theorem claim_c6_cex :
    (insertLeaf (VoxelTree.new : VoxelTree Nat) ⟨0, 0, 0, 0⟩ 1).get ⟨0, 0, 0, -1⟩
      = some 1 := by
  decide

/-! ### Growth transparency -/

theorem containsAt_iff (lg : Nat) (v : VoxelBounds) (hs : 0 ≤ v.lg_size) :
    containsAt lg v = true ↔
      (-((2 : Int) ^ lg / 2 ^ v.lg_size.toNat) < v.x ∧
       v.x + 1 ≤ (2 : Int) ^ lg / 2 ^ v.lg_size.toNat ∧
       -((2 : Int) ^ lg / 2 ^ v.lg_size.toNat) < v.y ∧
       v.y + 1 ≤ (2 : Int) ^ lg / 2 ^ v.lg_size.toNat ∧
       -((2 : Int) ^ lg / 2 ^ v.lg_size.toNat) < v.z ∧
       v.z + 1 ≤ (2 : Int) ^ lg / 2 ^ v.lg_size.toNat) := by
  unfold containsAt
  rw [if_neg (not_lt.mpr hs)]
  dsimp only
  by_cases hA : v.x ≤ -((2 : Int) ^ lg / 2 ^ v.lg_size.toNat) ∨
      v.y ≤ -((2 : Int) ^ lg / 2 ^ v.lg_size.toNat) ∨
      v.z ≤ -((2 : Int) ^ lg / 2 ^ v.lg_size.toNat)
  · rw [if_pos hA]
    simp only [Bool.false_eq_true, false_iff]
    rintro ⟨h1, h2, h3, h4, h5, h6⟩
    rcases hA with h | h | h <;> omega
  · rw [if_neg hA]
    push_neg at hA
    obtain ⟨a1, a2, a3⟩ := hA
    simp only [Bool.and_eq_true, decide_eq_true_eq]
    constructor
    · rintro ⟨⟨c1, c2⟩, c3⟩
      exact ⟨by omega, c1, by omega, c2, by omega, c3⟩
    · rintro ⟨d1, d2, d3, d4, d5, d6⟩
      exact ⟨⟨d2, d4⟩, d6⟩

theorem containsAt_mono (lg : Nat) (v : VoxelBounds)
    (h : containsAt lg v = true) : containsAt (lg + 1) v = true := by
  by_cases hs : v.lg_size < 0
  · unfold containsAt
    rw [if_pos hs]
  · have hs' : 0 ≤ v.lg_size := by omega
    rw [containsAt_iff _ _ hs'] at h ⊢
    have hmono : (2 : Int) ^ lg / 2 ^ v.lg_size.toNat ≤
        (2 : Int) ^ (lg + 1) / 2 ^ v.lg_size.toNat :=
      Int.ediv_le_ediv (by positivity) (by
        have : (2 : Int) ^ (lg + 1) = 2 ^ lg * 2 := by rw [pow_succ]
        nlinarith [pow_pos (show (0:Int) < 2 by norm_num) lg])
    omega

/-- Bit `E` of a two's-complement integer in `(-2^E, 2^E)` is exactly its
sign: it is 0 for non-negative values and 1 for negative ones. -/
theorem bit_of_range (E : Nat) (c : Int) (h1 : -((2 : Int) ^ E) < c)
    (h2 : c + 1 ≤ 2 ^ E) :
    ((c / (2 : Int) ^ E) % 2 != 0) = !(decide (0 ≤ c)) := by
  have hb : (0 : Int) < 2 ^ E := by positivity
  rcases le_or_lt 0 c with hc | hc
  · have hdiv : c / (2 : Int) ^ E = 0 := Int.ediv_eq_zero_of_lt hc (by omega)
    rw [hdiv]
    simp [hc]
  · have hdiv : c / (2 : Int) ^ E = -1 ∧ c % (2 : Int) ^ E = c + 2 ^ E :=
      (Int.ediv_emod_unique hb).mpr ⟨by ring, by omega, by omega⟩
    rw [hdiv.1]
    simp [show ¬(0 ≤ c) from by omega]

theorem selMask_antiSign (E : Nat) (v : VoxelBounds)
    (hx1 : -((2 : Int) ^ E) < v.x) (hx2 : v.x + 1 ≤ 2 ^ E)
    (hy1 : -((2 : Int) ^ E) < v.y) (hy2 : v.y + 1 ≤ 2 ^ E)
    (hz1 : -((2 : Int) ^ E) < v.z) (hz2 : v.z + 1 ≤ 2 ^ E) :
    selMask ((2 : Int) ^ E) v =
      (!(selSign v).1, !(selSign v).2.1, !(selSign v).2.2) := by
  unfold selMask selSign
  rw [bit_of_range E v.x hx1 hx2, bit_of_range E v.y hy1 hy2, bit_of_range E v.z hz1 hz2]

theorem selsOfMaskF_succ (f : Nat) (v : VoxelBounds) (m : Int) :
    selsOfMaskF (f + 1) v m =
      selMask m v :: (if m / 2 = 0 then [] else selsOfMaskF f v (m / 2)) := rfl

theorem pathAt_def (lg : Nat) (v : VoxelBounds) :
    pathAt lg v =
      selSign v :: (if find_mask lg v = 0 then []
        else selsOfMaskF ((find_mask lg v).toNat + 1) v (find_mask lg v)) := rfl

/-- One doubling step reshapes the selector path of a contained, non-negative
scale bounds: the sign step stays, one mask step testing the old `high` bit is
inserted right after it - and under containment that new selector is exactly
the antipode of the sign selector. -/
theorem pathAt_growStep (lg : Nat) (v : VoxelBounds) (hs : 0 ≤ v.lg_size)
    (hc : containsAt lg v = true) :
    pathAt (lg + 1) v =
      selSign v :: (!(selSign v).1, !(selSign v).2.1, !(selSign v).2.2) ::
        (pathAt lg v).tail := by
  have hsl : v.lg_size.toNat ≤ lg := containsAt_le_lg lg v hs hc
  have hhigh : (2 : Int) ^ lg / 2 ^ v.lg_size.toNat = 2 ^ (lg - v.lg_size.toNat) := by
    rw [int_pow_ediv, if_pos hsl]
  have hcontain := (containsAt_iff lg v hs).mp hc
  rw [hhigh] at hcontain
  obtain ⟨k1, k2, k3, k4, k5, k6⟩ := hcontain
  have hmask_new : find_mask (lg + 1) v = (2 : Int) ^ (lg - v.lg_size.toNat) := by
    rw [find_mask_eq_of_nonneg _ _ hs, if_pos (by omega)]
    have he : lg + 1 - 1 - v.lg_size.toNat = lg - v.lg_size.toNat := by omega
    rw [he]
  rw [pathAt_def (lg + 1) v, pathAt_def lg v, hmask_new, List.tail_cons,
    if_neg (show ¬((2 : Int) ^ (lg - v.lg_size.toNat) = 0) from by positivity),
    selsOfMaskF_succ, selMask_antiSign _ v k1 k2 k3 k4 k5 k6]
  congr 1
  by_cases hlt : v.lg_size.toNat + 1 ≤ lg
  · rw [find_mask_eq_of_nonneg _ _ hs, if_pos hlt]
    have hEsplit : lg - v.lg_size.toNat = (lg - 1 - v.lg_size.toNat) + 1 := by omega
    have hdiv2 : ((2 : Int) ^ (lg - v.lg_size.toNat)) / 2 =
        2 ^ (lg - 1 - v.lg_size.toNat) := by
      rw [hEsplit, pow_succ, Int.mul_ediv_cancel _ (by norm_num)]
    rw [hdiv2,
      if_neg (show ¬((2 : Int) ^ (lg - 1 - v.lg_size.toNat) = 0) from by positivity),
      if_neg (show ¬((2 : Int) ^ (lg - 1 - v.lg_size.toNat) = 0) from by positivity)]
    congr 1
    refine selsOfMaskF_fuel_irrel v _ _ _ ?_ ?_ ?_
    · positivity
    · rw [hEsplit, int_two_pow_toNat, int_two_pow_toNat]
      have h1 : (2 : Nat) ^ ((lg - 1 - v.lg_size.toNat) + 1) =
          2 ^ (lg - 1 - v.lg_size.toNat) * 2 := by rw [pow_succ]
      have hp : (0 : Nat) < 2 ^ (lg - 1 - v.lg_size.toNat) :=
        pow_pos (by norm_num) _
      omega
    · omega
  · have hEzero : lg - v.lg_size.toNat = 0 := by omega
    rw [find_mask_eq_of_nonneg _ _ hs, if_neg hlt, if_pos rfl, hEzero]
    rw [if_pos (by norm_num)]

/-- One doubling step relocates every node two levels deep: reading through
the rebuilt root at the sign selector followed by its antipode reaches the
old child of the sign selector. -/
theorem listFind_growStep {T : Type} (c : Branches T) (s0 : Sel) (rest : List Sel) :
    listFind (growStepBranches c) (s0 :: (!s0.1, !s0.2.1, !s0.2.2) :: rest) =
      listFind c (s0 :: rest) := by
  rw [listFind_cons_cons, branch_sel3_growStep, listFind_branch_match]
  cases rest with
  | nil => rw [listFind_single, listFind_single, sel3_upd3_same]
  | cons r0 rs => rw [listFind_cons_cons, listFind_cons_cons, sel3_upd3_same]

theorem get_growStep {T : Type} (t : VoxelTree T) (b : VoxelBounds) (w : T)
    (hs : 0 ≤ b.lg_size) (h : t.get b = some w) : (growStep t).get b = some w := by
  obtain ⟨hc, hfind⟩ := (get_eq_some_iff t b w).mp h
  rw [VoxelTree.contains_bounds] at hc
  apply (get_eq_some_iff _ b w).mpr
  constructor
  · show containsAt (t.lg_size + 1) b = true
    exact containsAt_mono t.lg_size b hc
  · show listFind (growStepBranches t.contents) (pathAt (t.lg_size + 1) b) = some (.Leaf w)
    rw [pathAt_growStep t.lg_size b hs hc, listFind_growStep]
    exact hfind

theorem get_growAux {T : Type} (b : VoxelBounds) (w : T) (hs : 0 ≤ b.lg_size) :
    ∀ (fuel : Nat) (t : VoxelTree T) (c : VoxelBounds), t.get b = some w →
      (growAux fuel t c).get b = some w := by
  intro fuel
  induction fuel with
  | zero => intro t c h; exact h
  | succ fuel ih =>
    intro t c h
    show (if t.contains_bounds c then t else growAux fuel (growStep t) c).get b = some w
    by_cases hcc : t.contains_bounds c
    · rw [if_pos hcc]
      exact h
    · rw [if_neg hcc]
      exact ih (growStep t) c (get_growStep t b w hs h)

/-- C7 (amended): for a bounds with non-negative `lg_size` holding a value,
any number of `grow_to_hold` calls with arbitrary bounds leaves `get`
unchanged.  For sub-unit bounds (`lg_size < 0`) growth is *not* transparent;
see the counterexample. -/
theorem claim_c7 {T : Type} (t : VoxelTree T) (b : VoxelBounds) (w : T)
    (cs : List VoxelBounds) (hs : 0 ≤ b.lg_size) (h : t.get b = some w) :
    (cs.foldl VoxelTree.grow_to_hold t).get b = some w := by
  induction cs generalizing t with
  | nil => exact h
  | cons c cs ih =>
    rw [List.foldl_cons]
    exact ih (t.grow_to_hold c) (get_growAux b w hs (growFuel c) t c h)

/-- Witness for C7: the `grow_is_transparent` scenario of src/lib.rs. -/
theorem claim_c7_witness :
    (0 ≤ (⟨1, 1, 1, 0⟩ : VoxelBounds).lg_size) ∧
    ((insertLeaf (VoxelTree.new : VoxelTree Nat) ⟨1, 1, 1, 0⟩ 1).get ⟨1, 1, 1, 0⟩
      = some 1) ∧
    (([⟨0, 0, 0, 1⟩, ⟨0, 0, 0, 2⟩, ⟨-32, 32, -128, 3⟩] : List VoxelBounds).foldl
        VoxelTree.grow_to_hold
        (insertLeaf (VoxelTree.new : VoxelTree Nat) ⟨1, 1, 1, 0⟩ 1)).get ⟨1, 1, 1, 0⟩
      = some 1 :=
  ⟨by decide, by decide,
   claim_c7 (insertLeaf (VoxelTree.new : VoxelTree Nat) ⟨1, 1, 1, 0⟩ 1)
     ⟨1, 1, 1, 0⟩ 1 [⟨0, 0, 0, 1⟩, ⟨0, 0, 0, 2⟩, ⟨-32, 32, -128, 3⟩]
     (by decide) (by decide)⟩

/-- C7, as stated, is false on the code: a sub-unit leaf (`lg_size = -1`) is
readable before growth but not after one `grow_to_hold`, because growth pushes
it one level down while the traversal path for the sub-unit bounds gains two
levels. -/
theorem claim_c7_cex :
    ((insertLeaf (VoxelTree.new : VoxelTree Nat) ⟨0, 0, 0, -1⟩ 1).get ⟨0, 0, 0, -1⟩
      = some 1) ∧
    (((insertLeaf (VoxelTree.new : VoxelTree Nat) ⟨0, 0, 0, -1⟩ 1).grow_to_hold
        ⟨0, 0, 0, 1⟩).get ⟨0, 0, 0, -1⟩ = none) := by
  decide

/-! ### The ray caster (src/raycast.rs)

`f32` is idealized as `ℚ`: the claims under scrutiny concern the selection
logic (which faces are candidates, which is smallest) and the `NaN` behavior
of the comparison, not rounding. -/

/-- A 3-vector of (idealized) floats, indexed 0/1/2 = x/y/z. -/
abbrev Vec3 := ℚ × ℚ × ℚ

def comp (p : Vec3) : Nat → ℚ
  | 0 => p.1
  | 1 => p.2.1
  | _ => p.2.2

/-- `Exit` (src/raycast.rs): side index 0-5 and time of intersection. -/
structure Exit where
  side : Nat
  toi : ℚ
deriving DecidableEq, Repr

/-- `Entry` (src/raycast.rs). -/
structure Entry where
  side : Nat
  toi : ℚ
deriving DecidableEq, Repr

/-- `Entry::from_exit` (src/raycast.rs): the geometrically opposite face. -/
def Entry.from_exit (e : Exit) : Entry :=
  ⟨if e.side < 3 then e.side + 3 else e.side - 3, e.toi⟩

/-- Modelled from the spec: `Branches::get(x, y, z)` is called by
`cast_ray_branches` (src/raycast.rs) but its definition is not in `src`;
per §4.5 of the spec the 0/1 coordinates select the low/high octant half on
each axis. -/
def Branches.getC {T : Type} (bs : Branches T) (c : Nat × Nat × Nat) : TreeBody T :=
  bs.sel3 (decide (c.1 = 1), decide (c.2.1 = 1), decide (c.2.2 = 1))

/-- The `sides` array of `cast_ray`'s `Empty` arm (src/raycast.rs). -/
def sidesList (b : VoxelBounds) : List Int :=
  [b.x, b.y, b.z, b.x + 1, b.y + 1, b.z + 1]

/-- The `next_toi` closure (src/raycast.rs): the time at which the ray meets
the plane of face `side`, filtered as the source does — faces parallel to the
ray are discarded, and the time must be at least `entry.toi` when an entry is
known, at least 0 otherwise. -/
def nextTOI (origin direction : Vec3) (bounds : VoxelBounds) (entry : Option Entry)
    (sb : Nat × Int) : Option Exit :=
  let side := sb.1
  let dim := side % 3
  let bound : ℚ := (sb.2 : ℚ) * bounds.size
  if comp direction dim = 0 then none
  else
    let toi := (bound - comp origin dim) / comp direction dim
    if (match entry with
        | some e => decide (e.toi ≤ toi)
        | none => decide (0 ≤ toi)) = true then some ⟨side, toi⟩
    else none

/-- The candidate exits of `cast_ray`'s `Empty` arm (src/raycast.rs): all six
faces, enumerated; when an entry face is known it is excluded first. -/
def candidates (origin direction : Vec3) (bounds : VoxelBounds)
    (entry : Option Entry) : List Exit :=
  match entry with
  | none => (sidesList bounds).enum.filterMap (nextTOI origin direction bounds none)
  | some e =>
    ((sidesList bounds).enum.filter (fun p => p.1 != e.side)).filterMap
      (nextTOI origin direction bounds (some e))

/-- `min_by(|&exit| exit.toi)` (src/raycast.rs): an element with minimal
time of intersection (`none` on the empty list). -/
def minBy : List Exit → Option Exit
  | [] => none
  | e :: rest => some (rest.foldl (fun acc c => if c.toi < acc.toi then c else acc) e)

/-- The `make_bounds` closure (src/raycast.rs): the bounds of the child
octant at `coords` of a parent bounds. -/
def childBounds (b : VoxelBounds) (c : Nat × Nat × Nat) : VoxelBounds :=
  ⟨2 * b.x + c.1, 2 * b.y + c.2.1, 2 * b.z + c.2.2, b.lg_size - 1⟩

def getDim (c : Nat × Nat × Nat) : Nat → Nat
  | 0 => c.1
  | 1 => c.2.1
  | _ => c.2.2

def setDim (c : Nat × Nat × Nat) (d : Nat) (val : Nat) : Nat × Nat × Nat :=
  match d with
  | 0 => (val, c.2.1, c.2.2)
  | 1 => (c.1, val, c.2.2)
  | _ => (c.1, c.2.1, val)

theorem sizeOf_sel3_lt {T : Type} (bs : Branches T) (s : Sel) :
    sizeOf (bs.sel3 s) < sizeOf bs := by
  obtain ⟨l1, l2, l3, l4, l5, l6, l7, l8⟩ := bs
  obtain ⟨a, b, c⟩ := s
  cases a <;> cases b <;> cases c <;> simp [Branches.sel3] <;> omega

theorem sizeOf_getC_lt {T : Type} (bs : Branches T) (c : Nat × Nat × Nat) :
    sizeOf (bs.getC c) < sizeOf bs := sizeOf_sel3_lt bs _

set_option maxHeartbeats 1000000 in
mutual

/-- `cast_ray` (src/raycast.rs).  `none` models the `unwrap` panic of the
`Empty` arm when no candidate exit face exists (which the precondition - the
ray passes through the node's bounds - rules out). -/
def cast_ray {T : Type} (node : TreeBody T) (origin direction : Vec3)
    (bounds : VoxelBounds) (entry : Option Entry) :
    Option (Except Exit (VoxelBounds × T)) :=
  match node with
  | .Empty =>
    match minBy (candidates origin direction bounds entry) with
    | some ex => some (.error ex)
    | none => none
  | .Leaf leaf => some (.ok (bounds, leaf))
  | .Branch a b c d e' f' g' h' =>
    let bs : Branches T := ⟨a, b, c, d, e', f', g', h'⟩
    let mid0 := ((bounds.x : ℚ) + 1/2) * bounds.size
    let mid1 := ((bounds.y : ℚ) + 1/2) * bounds.size
    let mid2 := ((bounds.z : ℚ) + 1/2) * bounds.size
    let entry_toi : ℚ := match entry with | some e => e.toi | none => 0
    let i0 := comp origin 0 + entry_toi * comp direction 0
    let i1 := comp origin 1 + entry_toi * comp direction 1
    let i2 := comp origin 2 + entry_toi * comp direction 2
    cast_ray_branches bs origin direction entry
      (if mid0 ≤ i0 then 1 else 0, if mid1 ≤ i1 then 1 else 0,
       if mid2 ≤ i2 then 1 else 0)
      bounds 4
termination_by 6 * sizeOf node + 5
decreasing_by
  simp_wf

/-- `cast_ray_branches` (src/raycast.rs).  The loop steps across sibling
octants along the exit axis; each axis is crossed at most once, so at most
three steps happen before a result propagates - fuel 4 is always enough. -/
def cast_ray_branches {T : Type} (bs : Branches T) (origin direction : Vec3)
    (entry : Option Entry) (coords : Nat × Nat × Nat) (parent : VoxelBounds)
    (fuel : Nat) : Option (Except Exit (VoxelBounds × T)) :=
  match fuel with
  | 0 => none
  | fuel + 1 =>
    let child := bs.getC coords
    let bounds := childBounds parent coords
    match cast_ray child origin direction bounds entry with
    | some (.ok r) => some (.ok r)
    | some (.error ex) =>
      let dim := ex.side % 3
      if comp direction dim < 0 then
        if getDim coords dim = 0 then some (.error ex)
        else cast_ray_branches bs origin direction (some (Entry.from_exit ex))
          (setDim coords dim 0) parent fuel
      else
        if getDim coords dim = 1 then some (.error ex)
        else cast_ray_branches bs origin direction (some (Entry.from_exit ex))
          (setDim coords dim 1) parent fuel
    | none => none
termination_by 6 * sizeOf bs + fuel
decreasing_by
  · have h := sizeOf_getC_lt bs coords
    simp_wf
    omega
  · simp_wf
  · simp_wf

end

theorem foldl_min_spec :
    ∀ (rest : List Exit) (a : Exit),
      (rest.foldl (fun acc c => if c.toi < acc.toi then c else acc) a = a ∨
       rest.foldl (fun acc c => if c.toi < acc.toi then c else acc) a ∈ rest) ∧
      (rest.foldl (fun acc c => if c.toi < acc.toi then c else acc) a).toi ≤ a.toi ∧
      ∀ c ∈ rest,
        (rest.foldl (fun acc c => if c.toi < acc.toi then c else acc) a).toi ≤ c.toi := by
  intro rest
  induction rest with
  | nil =>
    intro a
    refine ⟨Or.inl rfl, le_refl _, ?_⟩
    intro c hc
    cases hc
  | cons c0 cs ih =>
    intro a
    rw [List.foldl_cons]
    obtain ⟨hmem, hle, hall⟩ := ih (if c0.toi < a.toi then c0 else a)
    have h2 : (if c0.toi < a.toi then c0 else a).toi ≤ a.toi := by
      by_cases hlt : c0.toi < a.toi
      · rw [if_pos hlt]
        exact hlt.le
      · rw [if_neg hlt]
    have h3 : (if c0.toi < a.toi then c0 else a).toi ≤ c0.toi := by
      by_cases hlt : c0.toi < a.toi
      · rw [if_pos hlt]
      · rw [if_neg hlt]
        exact le_of_not_lt hlt
    refine ⟨?_, le_trans hle h2, ?_⟩
    · rcases hmem with h | h
      · rw [h]
        by_cases hlt : c0.toi < a.toi
        · rw [if_pos hlt]
          exact Or.inr (List.mem_cons_self _ _)
        · rw [if_neg hlt]
          exact Or.inl rfl
      · exact Or.inr (List.mem_cons_of_mem _ h)
    · intro c hc
      rcases List.mem_cons.mp hc with rfl | hc'
      · exact le_trans hle h3
      · exact hall c hc'

theorem minBy_spec (l : List Exit) (hne : l ≠ []) :
    ∃ m, minBy l = some m ∧ m ∈ l ∧ ∀ c ∈ l, m.toi ≤ c.toi := by
  cases l with
  | nil => exact absurd rfl hne
  | cons e rest =>
    obtain ⟨hmem, hle, hall⟩ := foldl_min_spec rest e
    refine ⟨_, rfl, ?_, ?_⟩
    · rcases hmem with h | h
      · rw [h]
        exact List.mem_cons_self _ _
      · exact List.mem_cons_of_mem _ h
    · intro c hc
      rcases List.mem_cons.mp hc with rfl | hc'
      · exact hle
      · exact hall c hc'

/-- C8: for a ray meeting the node (formally: the candidate exit set is
non-empty, which the precondition guarantees), `cast_ray` on a `Leaf` returns
`Ok((bounds, value))`, and on `Empty` returns `Err(Exit)` whose face is drawn
from the candidates — the faces with non-zero direction component, the entry
face excluded, `t ≥ entry.t` (or `t ≥ 0` with no entry) — and whose time of
intersection is minimal among them. -/
theorem claim_c8 {T : Type} (origin direction : Vec3) (bounds : VoxelBounds)
    (entry : Option Entry) (w : T)
    (hne : candidates origin direction bounds entry ≠ []) :
    cast_ray (TreeBody.Leaf w) origin direction bounds entry =
      some (.ok (bounds, w)) ∧
    ∃ ex, cast_ray (TreeBody.Empty : TreeBody T) origin direction bounds entry =
        some (.error ex) ∧
      ex ∈ candidates origin direction bounds entry ∧
      ∀ c ∈ candidates origin direction bounds entry, ex.toi ≤ c.toi := by
  constructor
  · rw [cast_ray]
  · obtain ⟨m, hm, hmem, hall⟩ := minBy_spec _ hne
    refine ⟨m, ?_, hmem, hall⟩
    rw [cast_ray, hm]

/-- Witness for C8: a ray from `(-2,0,0)` along `+x` through the unit cube at
the origin. -/
theorem claim_c8_witness :
    (candidates ((-2 : ℚ), 0, 0) (1, 0, 0) ⟨0, 0, 0, 0⟩ none ≠ []) ∧
    (cast_ray (TreeBody.Leaf (0 : Nat)) ((-2 : ℚ), 0, 0) (1, 0, 0) ⟨0, 0, 0, 0⟩ none =
        some (.ok (⟨0, 0, 0, 0⟩, 0)) ∧
      ∃ ex, cast_ray (TreeBody.Empty : TreeBody Nat) ((-2 : ℚ), 0, 0) (1, 0, 0)
          ⟨0, 0, 0, 0⟩ none = some (.error ex) ∧
        ex ∈ candidates ((-2 : ℚ), 0, 0) (1, 0, 0) ⟨0, 0, 0, 0⟩ none ∧
        ∀ c ∈ candidates ((-2 : ℚ), 0, 0) (1, 0, 0) ⟨0, 0, 0, 0⟩ none,
          ex.toi ≤ c.toi) :=
  have hc : candidates ((-2 : ℚ), 0, 0) (1, 0, 0) ⟨0, 0, 0, 0⟩ none ≠ [] := by
    norm_num [candidates, sidesList, nextTOI, VoxelBounds.size, comp,
      List.enum, List.enumFrom, List.filterMap]
    exact List.cons_ne_nil _ _
  ⟨hc, claim_c8 ((-2 : ℚ), 0, 0) (1, 0, 0) ⟨0, 0, 0, 0⟩ none 0 hc⟩

/-! ### The time-of-intersection order -/

/-- `TOI` (src/raycast.rs): a time of intersection.  The `f32` is modelled
NaN-aware: `none` is a NaN, `some q` a (rationally idealized) numeric value. -/
structure TOI where
  val : Option ℚ
deriving DecidableEq, Repr

/-- `PartialOrd::partial_cmp` on the wrapped float: a total comparison on
numeric values, undefined (`none`) as soon as either operand is NaN. -/
def TOI.cmpPartial (a b : TOI) : Option Ordering :=
  match a.val, b.val with
  | some x, some y => some (compare x y)
  | _, _ => none

/-- `Ord for TOI` (src/raycast.rs): `self.partial_cmp(other).unwrap()`.
The result is an `Option`: `none` models the `unwrap` panic when a NaN was
compared. -/
def TOI.cmp (a b : TOI) : Option Ordering := a.cmpPartial b

/-- C9: TOI comparison is a total order on non-NaN values — on numeric
operands it is `compare` of the underlying values (deterministic and total,
agreeing with the strict order and with equality) — and any comparison
involving a NaN aborts locally (`none`, the modelled panic) rather than
producing an ordering. -/
theorem claim_c9 :
    (∀ a b : TOI, TOI.cmp a b = none ↔ (a.val = none ∨ b.val = none)) ∧
    (∀ x y : ℚ, TOI.cmp ⟨some x⟩ ⟨some y⟩ = some (compare x y)) ∧
    (∀ x y : ℚ, TOI.cmp ⟨some x⟩ ⟨some y⟩ = some Ordering.lt ↔ x < y) ∧
    (∀ x y : ℚ, TOI.cmp ⟨some x⟩ ⟨some y⟩ = some Ordering.eq ↔ x = y) := by
  refine ⟨?_, ?_, ?_, ?_⟩
  · intro a b
    obtain ⟨av⟩ := a
    obtain ⟨bv⟩ := b
    cases av <;> cases bv <;> simp [TOI.cmp, TOI.cmpPartial]
  · intro x y
    rfl
  · intro x y
    simp [TOI.cmp, TOI.cmpPartial, compare_lt_iff_lt]
  · intro x y
    simp [TOI.cmp, TOI.cmpPartial, compare_eq_iff_eq]
